import Mathlib

/-!
Verification of the clox bytecode interpreter (zxul767/lox) against its
natural-language specification.  The definitions below are shallow embeddings
of the C sources under src/clox/src/: machine doubles are modelled as
rationals, heap pointers as natural-number ids, and the open-addressing hash
table, the list natives, the call machinery and the mark-sweep collector are
translated function by function.  Theorems about the claims follow after all
definitions.
-/

set_option maxHeartbeats 1000000

namespace Lox

/-! ## Values (value.h / value.c)

A `Value` is the tagged union from value.h: VAL_NIL, VAL_BOOL, VAL_NUMBER,
VAL_OBJECT and VAL_ERROR.  Doubles are modelled as rationals; object pointers
as natural-number heap ids. -/

inductive Value where
  | nil : Value
  | bool (b : Bool) : Value
  | number (q : Rat) : Value
  | object (id : Nat) : Value
  | error : Value
deriving DecidableEq, Repr

/-- value.c, value__equals: values of different tags are unequal; objects are
compared by pointer; the VAL_ERROR tag falls to the default case (false). -/
def value__equals (a b : Value) : Bool :=
  match a, b with
  | Value.bool x, Value.bool y => x == y
  | Value.nil, Value.nil => true
  | Value.number x, Value.number y => x == y
  | Value.object x, Value.object y => x == y
  | _, _ => false

/-- vm.c, is_falsey: nil and false are falsey, everything else is truthy. -/
def is_falsey (v : Value) : Bool :=
  match v with
  | Value.nil => true
  | Value.bool b => !b
  | _ => false

/-- Truncation of a rational toward zero, the behaviour of the C cast
(int)d on a double (ignoring overflow of the int range). -/
def ratTruncToInt (q : Rat) : Int :=
  if q.num < 0 then -(((-q.num).toNat / q.den : Nat) : Int)
  else ((q.num.toNat / q.den : Nat) : Int)

/-- value.h, AS_INT: (int)(value.as.number).  Reading the union member of a
non-number value is indeterminate in C; the model returns 0 there (the VM
only applies AS_INT to numbers). -/
def Value.asInt (v : Value) : Int :=
  match v with
  | Value.number q => ratTruncToInt q
  | _ => 0

/-! ## Lists (value.c value arrays, lox_list.c natives)

An ObjectList is its underlying ValueArray; we model the array as the list of
its first `count` values. -/

/-- value.c, value_array__pop: `return array->values[--array->count];`.
The C asserts count > 0; the model returns nil for an empty array. -/
def value_array__pop (arr : List Value) : Value × List Value :=
  (arr.getD (arr.length - 1) Value.nil, arr.take (arr.length - 1))

/-- lox_list.c, lox_list__pop: popping an empty list prints an error line on
stderr and returns nil without touching the list; otherwise it delegates to
value_array__pop.  The third component collects the stderr lines written. -/
def lox_list__pop (arr : List Value) : Value × List Value × List String :=
  if arr.length = 0 then
    (Value.nil, arr, ["Error: Cannot remove elements from an empty list."])
  else
    let r := value_array__pop arr
    (r.1, r.2, [])

/-- indexing.c, index__normalize_index: negative indices count from the end;
returns none exactly when the C function reports an index error and returns
false. -/
def index__normalize_index (index : Int) (length : Nat) : Option Nat :=
  if length = 0 then none
  else
    let normed : Int := if index < 0 then (length : Int) + index else index
    if normed < 0 ∨ normed ≥ (length : Int) then none else some normed.toNat

/-- lox_list.c, lox_list__at: args[0] is the receiver list (REQUIRE_LIST
asserts it is a list), args[1] the index; out-of-range indices make the
native return the ERROR_VALUE sentinel.  `heap` maps list object ids to
their element arrays; a non-list receiver would trip the C assert and is
mapped to the error sentinel here. -/
def lox_list__at (heap : List (List Value)) (args : List Value) : Value :=
  match args.getD 0 Value.nil with
  | Value.object id =>
    let arr := heap.getD id []
    match index__normalize_index (args.getD 1 Value.nil).asInt arr.length with
    | none => Value.error
    | some n => arr.getD n Value.nil
  | _ => Value.error

/-! ## Callables and the arity check (object.h signatures, vm.c) -/

/-- The parameter record of a callable signature.  In the current sources a
parameter carries an optional default value (used by compute_min_arity);
we keep it as an optional string. -/
structure CallableParameter where
  name : String
  type : String
  default_value : Option String
deriving DecidableEq, Repr

/-- The callable signature: declared arity plus the (possibly NULL) parameter
array. -/
structure CallableSignature where
  arity : Nat
  parameters : Option (List CallableParameter)
deriving DecidableEq, Repr

/-- The countdown loop of vm.c, compute_min_arity:
while (min_arity > 0 && parameters[min_arity - 1].default_value != NULL)
min_arity--. -/
def min_arity_loop (ps : List CallableParameter) : Nat → Nat
  | 0 => 0
  | m + 1 =>
    if (ps.getD m ⟨"", "", none⟩).default_value ≠ none then min_arity_loop ps m
    else m + 1

/-- vm.c, compute_min_arity: the declared arity minus the trailing
parameters that carry defaults (skipped when parameters is NULL). -/
def compute_min_arity (sig : CallableSignature) : Nat :=
  match sig.parameters with
  | none => sig.arity
  | some ps => min_arity_loop ps sig.arity

/-- vm.h, FRAMES_MAX. -/
def FRAMES_MAX : Nat := 64

/-- The arity-checking half of vm.c, is_valid_call: args_count must lie in
[min_arity .. arity]; on failure it reports one of the two runtime error
messages. -/
def arity_check (sig : CallableSignature) (args_count : Nat) : Option String :=
  let arity := sig.arity
  let min_arity := compute_min_arity sig
  if args_count < min_arity ∨ args_count > arity then
    some
      (if min_arity = arity then
        "Expected " ++ toString arity ++ " argument" ++
          (if arity = 1 then "" else "s") ++ " but got " ++ toString args_count
      else
        "Expected between " ++ toString min_arity ++ " and " ++ toString arity ++
          " arguments but got " ++ toString args_count)
  else none

/-- vm.c, is_valid_call: the arity check above followed by the frame-stack
overflow check; returns the runtime error message when the call is invalid. -/
def is_valid_call (sig : CallableSignature) (args_count frames_count : Nat) :
    Option String :=
  match arity_check sig args_count with
  | some msg => some msg
  | none =>
    if frames_count = FRAMES_MAX then some ("Stack overflow!") else none

/-- vm.c, call_closure restricted to its control effect on the frame stack:
when is_valid_call fails no frame is pushed and the call does not proceed
(none); otherwise one frame is pushed. -/
def call_closure (sig : CallableSignature) (args_count frames_count : Nat) :
    Option Nat :=
  match is_valid_call sig args_count frames_count with
  | some _ => none
  | none => some (frames_count + 1)

/-- A native function object (object.h, ObjectNativeFunction): signature,
is_method flag and the primitive itself, which receives the C args window as
a list (args[0] first). -/
structure NativeFn where
  signature : CallableSignature
  is_method : Bool
  fn : List Value → Value

/-- vm.c, call_native.  The value stack is a list with its head at the top.
After is_valid_call passes, the native is invoked on the window of
args_count (+1 for methods) stack slots in C order, the window plus callee
slot is discarded, and the returned value is pushed unconditionally.
Returns none exactly when the C function returns false (runtime error). -/
def call_native (native : NativeFn) (args_count frames_count : Nat)
    (stack : List Value) : Option (List Value) :=
  match is_valid_call native.signature args_count frames_count with
  | some _ => none
  | none =>
    let include_this := if native.is_method then 1 else 0
    let window := (stack.take (args_count + include_this)).reverse
    let result := native.fn window
    some (result :: stack.drop (args_count + 1))

/-! ## Indexing instructions (vm.c OP_GET_INDEX / OP_SET_INDEX) -/

/-- vm.c, validate_integer_index: the index value must be a number whose
double representation is an exact integer ((int) truncation round-trips);
q.den = 1 is exactly that condition for our rational model. -/
def validate_integer_index (v : Value) : Except String Int :=
  match v with
  | Value.number q =>
    if q.den = 1 then Except.ok q.num
    else Except.error ("List index must be an integer.")
  | _ => Except.error ("List index must be an integer.")

/-- The runtime error text emitted by vm.c, normalize_list_index for an
out-of-range index on a list of `count` elements. -/
def canonical_index_error (index : Int) (count : Nat) : String :=
  "tried to access index " ++ toString index ++ ", but valid range is [0.." ++
    toString ((count : Int) - 1) ++ "] or [-" ++ toString count ++ "..-1]"

/-- vm.c, normalize_list_index: empty lists get their own error message;
negative indices count from the end; anything out of range gets the
canonical message. -/
def normalize_list_index (index : Int) (count : Nat) : Except String Nat :=
  if count = 0 then Except.error ("Cannot access elements in empty list.")
  else
    let normalized : Int := if index < 0 then (count : Int) + index else index
    if normalized < 0 ∨ normalized ≥ (count : Int) then
      Except.error (canonical_index_error index count)
    else Except.ok normalized.toNat

/-- vm.c, resolve_list_index specialised to a heap of list objects: the
receiver must be a list object, the index an exact integer, and the
normalized index in range.  Returns the list id and the normalized index. -/
def resolve_list_index (heap : List (List Value)) (receiver index : Value)
    (receiver_error : String) : Except String (Nat × Nat) :=
  match receiver with
  | Value.object id =>
    if id < heap.length then
      match validate_integer_index index with
      | Except.error e => Except.error e
      | Except.ok i =>
        match normalize_list_index i (heap.getD id []).length with
        | Except.error e => Except.error e
        | Except.ok n => Except.ok (id, n)
    else Except.error receiver_error
  | _ => Except.error receiver_error

/-- vm.c, OP_GET_INDEX: pop the index and the receiver, resolve, and push
the selected element; a resolution failure is the runtime error the
dispatch loop returns with. -/
def op_get_index (heap : List (List Value)) (stack : List Value) :
    Except String (List Value) :=
  let index := stack.getD 0 Value.nil
  let receiver := stack.getD 1 Value.nil
  match resolve_list_index heap receiver index ("Only lists support index access.") with
  | Except.error e => Except.error e
  | Except.ok r => Except.ok (((heap.getD r.1 []).getD r.2 Value.nil) :: stack.drop 2)

/-- vm.c, OP_SET_INDEX: pop the assigned value, the index and the receiver,
resolve (with the assignment receiver error), store the value at the
normalized index, and push the assigned value back (assignments are
expressions); a resolution failure is the runtime error the dispatch loop
returns with.  Returns the updated list heap together with the stack. -/
def op_set_index (heap : List (List Value)) (stack : List Value) :
    Except String (List (List Value) × List Value) :=
  let value := stack.getD 0 Value.nil
  let index := stack.getD 1 Value.nil
  let receiver := stack.getD 2 Value.nil
  match resolve_list_index heap receiver index ("Only lists support index assignment.") with
  | Except.error e => Except.error e
  | Except.ok r =>
    Except.ok (heap.set r.1 ((heap.getD r.1 []).set r.2 value),
      value :: stack.drop 3)

/-! ## Open upvalues (vm.c capture_upvalue / close_upvalues)

The open-upvalue list is modelled by the list of stack-slot addresses its
entries point at, head first (the C list head).  Addresses grow upward, so
the list is sorted by descending address. -/

/-- vm.c, capture_upvalue on the location list: walk past larger locations,
reuse an existing upvalue at the same slot, otherwise splice a new one in
order.  (The C parameter is named `local`, a reserved word in Lean.) -/
def capture_upvalue (loc : Nat) : List Nat → List Nat
  | [] => [loc]
  | u :: rest =>
    if loc < u then u :: capture_upvalue loc rest
    else if u = loc then u :: rest
    else loc :: u :: rest

/-- vm.c, close_upvalues: unlink every open upvalue whose location is at or
above `last` (they sit at the head of the descending list). -/
def close_upvalues (last : Nat) : List Nat → List Nat
  | [] => []
  | u :: rest => if last ≤ u then close_upvalues last rest else u :: rest

/-! ## The open-addressing hash table (table.c)

Keys are interned string objects, i.e. heap pointers; we model a pointer as
a natural-number id and read its hash field through a function
`hashOf : Nat → Nat` (the hash is stored in the pointed-to object).
An Entry mirrors table.h: a possibly-NULL key pointer plus a value.  An
empty (never used) entry is (NULL, nil); a tombstone is (NULL, true). -/

structure Entry where
  key : Option Nat
  value : Value
deriving DecidableEq, Repr

/-- The (NULL, nil) entry produced by allocate_entries. -/
def Entry.free : Entry := ⟨none, Value.nil⟩

/-- Reading entries[i]; out-of-range indices never occur in the C code and
default to a free entry here. -/
def slotAt (entries : List Entry) (i : Nat) : Entry :=
  entries.getD i Entry.free

/-- An entry that has never been used: key NULL and value nil. -/
def Entry.isFree (e : Entry) : Bool :=
  e.key.isNone && (e.value == Value.nil)

/-- The number of entries that are either in use or tombstones; table.c
maintains count = occupied (tombstones are counted as full buckets). -/
def occupied (entries : List Entry) : Nat :=
  entries.countP (fun e => !e.isFree)

/-- The number of entries holding a key. -/
def usedCount (entries : List Entry) : Nat :=
  entries.countP (fun e => e.key.isSome)

/-- An entry the find_entry probe walks past when looking for `key`: either
a used entry with a different key, or a tombstone. -/
def Entry.continuesFor (e : Entry) (key : Nat) : Prop :=
  e.key ≠ some key ∧ e.isFree = false

structure Table where
  count : Nat
  entries : List Entry
deriving DecidableEq, Repr

/-- table.c, find_entry, as a fuel-indexed loop.  `tombstone` is the
recycle-target accumulator; the probe steps to (index + 1) % cap.  A none
result models running out of fuel, which (table.c) is unreachable as long
as the table keeps an empty entry; the C loop would cycle forever there. -/
def find_entry_loop (entries : List Entry) (cap key : Nat) :
    Nat → Nat → Option Nat → Option Nat
  | 0, _, _ => none
  | fuel + 1, index, tombstone =>
    let e := slotAt entries index
    match e.key with
    | none =>
      if e.value = Value.nil then
        -- an empty entry terminates the probe; recycle a tombstone if any
        some (tombstone.getD index)
      else
        -- a tombstone: remember the first one and keep probing
        find_entry_loop entries cap key fuel ((index + 1) % cap)
          (if tombstone = none then some index else tombstone)
    | some k =>
      if k = key then some index
      else find_entry_loop entries cap key fuel ((index + 1) % cap) tombstone

/-- find_entry on a raw entry array: the probe starts at hash % capacity;
capacity probes suffice to visit every bucket once. -/
def find_entry_list (hashOf : Nat → Nat) (entries : List Entry) (key : Nat) :
    Option Nat :=
  find_entry_loop entries entries.length key entries.length
    (hashOf key % entries.length) none

/-- memory.h, GROW_CAPACITY. -/
def grow_capacity (cap : Nat) : Nat := if cap < 8 then 8 else cap * 2

/-- table.c, allocate_entries: a fresh array of empty entries. -/
def allocate_entries (cap : Nat) : List Entry :=
  List.replicate cap Entry.free

/-- table.c, copy_entries_from: re-insert every used entry of the old array
into the fresh one, recomputing the count (tombstones are dropped).  The
none branch of the probe is unreachable in C and skips the entry here. -/
def copy_entries_from (hashOf : Nat → Nat) (old : List Entry)
    (init : List Entry) : List Entry × Nat :=
  old.foldl
    (fun acc e =>
      match e.key with
      | none => acc
      | some k =>
        match find_entry_list hashOf acc.1 k with
        | none => acc
        | some i => (acc.1.set i ⟨some k, e.value⟩, acc.2 + 1))
    (init, 0)

/-- table.c, adjust_capacity. -/
def adjust_capacity (hashOf : Nat → Nat) (t : Table) (new_cap : Nat) : Table :=
  let r := copy_entries_from hashOf t.entries (allocate_entries new_cap)
  ⟨r.2, r.1⟩

/-- table.c, table__set.  The load-factor test
count + 1 > capacity * 0.75 is exact double arithmetic, equivalent to
4 * (count + 1) > 3 * capacity over the integers.  Returns whether the key
was newly inserted, together with the updated table. -/
def table__set (hashOf : Nat → Nat) (t : Table) (key : Nat) (v : Value) :
    Bool × Table :=
  let t :=
    if 4 * (t.count + 1) > 3 * t.entries.length then
      adjust_capacity hashOf t (grow_capacity t.entries.length)
    else t
  match find_entry_list hashOf t.entries key with
  | none => (false, t) -- unreachable while the table keeps an empty entry
  | some i =>
    let e := slotAt t.entries i
    let is_new_key := e.key.isNone
    let new_count :=
      if e.key = none ∧ e.value = Value.nil then t.count + 1 else t.count
    (is_new_key, ⟨new_count, t.entries.set i ⟨some key, v⟩⟩)

/-- table.c, table__get. -/
def table__get (hashOf : Nat → Nat) (t : Table) (key : Nat) : Option Value :=
  if t.count = 0 then none
  else
    match find_entry_list hashOf t.entries key with
    | none => none
    | some i =>
      let e := slotAt t.entries i
      if e.key = none then none else some e.value

/-- table.c, table__delete: place a tombstone (NULL, true) in the entry
holding the key; the count is not decremented. -/
def table__delete (hashOf : Nat → Nat) (t : Table) (key : Nat) : Bool × Table :=
  if t.count = 0 then (false, t)
  else
    match find_entry_list hashOf t.entries key with
    | none => (false, t)
    | some i =>
      let e := slotAt t.entries i
      if e.key = none then (false, t)
      else (true, ⟨t.count, t.entries.set i ⟨none, Value.bool true⟩⟩)

/-- table.c, table__remove_dead_objects: walk the entry array and delete
every entry whose key object is no longer alive.  `alive` reads the
is_alive bit of the pointed-to object. -/
def table__remove_dead_objects (hashOf : Nat → Nat) (alive : Nat → Bool)
    (t : Table) : Table :=
  (List.range t.entries.length).foldl
    (fun acc i =>
      match (slotAt acc.entries i).key with
      | some k => if alive k then acc else (table__delete hashOf acc k).2
      | none => acc)
    t

/-- vm.c, OP_SET_GLOBAL: table__set returning true means the variable had
never been declared; the spurious binding is deleted again, a runtime error
is raised and the dispatch loop returns INTERPRET_RUNTIME_ERROR (modelled
by the some branch of the first component). -/
def op_set_global (hashOf : Nat → Nat) (name : Nat) (v : Value) (globals : Table) :
    Option String × Table :=
  let r := table__set hashOf globals name v
  if r.1 then
    (some ("Undefined variable"), (table__delete hashOf r.2 name).2)
  else
    (none, r.2)

/-- The representation invariant the claims quantify over: the count equals
the number of non-empty buckets, the load factor is at most 0.75, and every
stored key is found at its own bucket by the probe (which also forces keys
to be distinct). -/
def TableWF (hashOf : Nat → Nat) (t : Table) : Prop :=
  t.count = occupied t.entries ∧
  4 * t.count ≤ 3 * t.entries.length ∧
  ∀ i k, (slotAt t.entries i).key = some k →
    find_entry_list hashOf t.entries k = some i

/-! ## String interning (cstring.c, object.c, table.c find_string)

An ObjectString stores its character array (byte values), its length (the
length of that array) and the FNV-1a hash computed at interning time.
The string heap is the list of all allocated string objects; a string
pointer is an index into it. -/

structure ObjStr where
  chars : List Nat
  hash : Nat
deriving DecidableEq, Repr

/-- cstring.c, cstr__hash: 32-bit FNV-1a over the raw bytes. -/
def cstr__hash (chars : List Nat) : Nat :=
  chars.foldl (fun h b => ((h ^^^ b) * 16777619) % 4294967296) 2166136261

/-- object.c, get_escaped_char for the byte following a backslash:
backslash-n and backslash-t translate, a doubled backslash stays one
backslash, every other escape yields the NUL character. -/
def escaped_char (c : Nat) : Nat :=
  if c = 110 then 10        -- n → newline
  else if c = 116 then 9    -- t → tab
  else if c = 92 then 92    -- a doubled backslash
  else 0

/-- object.c, count_effective_chars + copy_with_translated_escapes fused:
a backslash consumes two input bytes and emits the translated character
(a trailing lone backslash is emitted as itself). -/
def translate_escapes : List Nat → List Nat
  | [] => []
  | 92 :: [] => [92]
  | 92 :: c :: rest => escaped_char c :: translate_escapes rest
  | c :: rest => c :: translate_escapes rest

/-- The per-bucket comparison of table.c, table__find_string: the stored
string matches when its length, its hash and its bytes all equal the
queried raw bytes. -/
def str_matches (heap : List ObjStr) (id : Nat) (chars : List Nat) (hash : Nat) :
    Bool :=
  let o := heap.getD id ⟨[], 0⟩
  o.chars.length == chars.length && o.hash == hash && o.chars == chars

/-- The probe loop of table.c, table__find_string (no tombstone recycling:
it only looks for a content match or the empty entry that ends the probe). -/
def find_string_loop (heap : List ObjStr) (entries : List Entry) (cap : Nat)
    (chars : List Nat) (hash : Nat) : Nat → Nat → Option Nat
  | 0, _ => none
  | fuel + 1, index =>
    let e := slotAt entries index
    match e.key with
    | none =>
      if e.value = Value.nil then none
      else find_string_loop heap entries cap chars hash fuel ((index + 1) % cap)
    | some kid =>
      if str_matches heap kid chars hash then some kid
      else find_string_loop heap entries cap chars hash fuel ((index + 1) % cap)

/-- table.c, table__find_string. -/
def table__find_string (heap : List ObjStr) (t : Table) (chars : List Nat)
    (hash : Nat) : Option Nat :=
  if t.count = 0 then none
  else
    find_string_loop heap t.entries t.entries.length chars hash
      t.entries.length (hash % t.entries.length)

/-- The VM state that string creation touches: the string heap and the
interned_strings table (whose keys point into the heap). -/
structure InternState where
  heap : List ObjStr
  interned : Table
deriving Repr

/-- The hash field of a string object, read through its pointer. -/
def strHashOf (heap : List ObjStr) : Nat → Nat :=
  fun id => (heap.getD id ⟨[], 0⟩).hash

/-- object.c, string__allocate: allocate the object and add it to the
interned_strings table with a nil value. -/
def string__allocate (chars : List Nat) (hash : Nat) (st : InternState) :
    Nat × InternState :=
  let id := st.heap.length
  let heap := st.heap ++ [⟨chars, hash⟩]
  let interned := (table__set (strHashOf heap) st.interned id Value.nil).2
  (id, ⟨heap, interned⟩)

/-- object.c, string__copy: hash the RAW source bytes, look them up in the
interned table, and only on a miss translate the escape sequences and
allocate — the new object stores the translated bytes and length but the
hash of the raw bytes. -/
def string__copy (raw : List Nat) (st : InternState) : Nat × InternState :=
  let hash := cstr__hash raw
  match table__find_string st.heap st.interned raw hash with
  | some id => (id, st)
  | none => string__allocate (translate_escapes raw) hash st

/-- object.c, string__take_ownership (used by OP_ADD concatenation): the
buffer already holds final bytes, so hashing and interning agree with the
stored representation. -/
def string__take_ownership (chars : List Nat) (st : InternState) :
    Nat × InternState :=
  let hash := cstr__hash chars
  match table__find_string st.heap st.interned chars hash with
  | some id => (id, st)
  | none => string__allocate chars hash st

/-! ## The garbage collector (memory.c)

A heap object is its id (address), its is_alive bit and the ids of the
objects it references (the edges mark_object_references follows, which
depend on the object kind).  The intrusive objects list is the list order. -/

structure GcObj where
  id : Nat
  alive : Bool
  refs : List Nat
deriving DecidableEq, Repr

/-- Dereferencing an object pointer: the first object with the given id. -/
def lookupObj (store : List GcObj) (id : Nat) : Option GcObj :=
  store.find? (fun o => o.id == id)

/-- Setting the is_alive bit of the object at `id`. -/
def setAlive (store : List GcObj) (id : Nat) : List GcObj :=
  store.map (fun o => if o.id = id then ⟨o.id, true, o.refs⟩ else o)

/-- The marking state: the objects list plus the gray worklist. -/
structure GcState where
  store : List GcObj
  gray : List Nat
deriving Repr

/-- memory.c, memory__mark_object_as_alive: NULL or already-alive objects
are skipped; otherwise the bit is set and the object joins the gray stack. -/
def mark_object_as_alive (g : GcState) (id : Nat) : GcState :=
  match lookupObj g.store id with
  | none => g
  | some o => if o.alive then g else ⟨setAlive g.store id, id :: g.gray⟩

/-- memory.c, mark_roots: mark every root id (the roots are the VM
constants, the value stack, the frame closures, the open upvalues, the
globals table, the compiler chain and the nursery — everything except the
weak interned_strings table). -/
def mark_roots (roots : List Nat) (store : List GcObj) : GcState :=
  roots.foldl mark_object_as_alive ⟨store, []⟩

/-- memory.c, trace_references: pop a gray object and mark everything it
references (mark_object_references), until the worklist drains. -/
def trace_references (fuel : Nat) (g : GcState) : GcState :=
  match fuel with
  | 0 => g
  | fuel + 1 =>
    match g.gray with
    | [] => g
    | id :: rest =>
      let refs := match lookupObj g.store id with
        | some o => o.refs
        | none => []
      trace_references fuel (refs.foldl mark_object_as_alive ⟨g.store, rest⟩)

/-- memory.c, sweep: dead objects are unlinked and disposed; survivors get
their is_alive bit cleared for the next cycle. -/
def sweep (store : List GcObj) : List GcObj :=
  store.filterMap (fun o => if o.alive then some ⟨o.id, false, o.refs⟩ else none)

/-- The is_alive bit of the object `id` points to. -/
def aliveIn (store : List GcObj) (id : Nat) : Bool :=
  match lookupObj store id with
  | some o => o.alive
  | none => false

/-- memory.c, memory__run_gc: mark the roots, trace, prune the interned
strings table (weak keys), then sweep.  The trace fuel is enough for the
worklist to drain (each mark flips one dead bit). -/
def memory__run_gc (hashOf : Nat → Nat) (roots : List Nat) (store : List GcObj)
    (interned : Table) : List GcObj × Table :=
  let g1 := mark_roots roots store
  let g2 := trace_references (2 * g1.store.length + g1.gray.length + 1) g1
  let interned2 := table__remove_dead_objects hashOf (aliveIn g2.store) interned
  let store3 := sweep g2.store
  (store3, interned2)

/-- Reachability from the root set through object references, over the
object graph at the start of the cycle. -/
inductive Reachable (store : List GcObj) (roots : List Nat) : Nat → Prop
  | root {id : Nat} : id ∈ roots → Reachable store roots id
  | step {a b : Nat} {o : GcObj} : Reachable store roots a →
      lookupObj store a = some o → b ∈ o.refs → Reachable store roots b

/-! ## Class declarations (compiler.c, modelled from the spec)

The snapshot under src/ carries a stale compiler.c whose class_declaration
(lines 924-935) accepts only an empty class body, while vm.c in the same
tree executes OP_NEW_METHOD; the emitting side that handles methods is not
in src/. -/

/-- The opcodes the class-compilation fragment emits. -/
inductive ClassOp where
  | NEW_CLASS (name_index : Nat)
  | NEW_CLOSURE (fn_const_index : Nat)
  | NEW_METHOD (name_index : Nat)
deriving DecidableEq, Repr

/-- A method of a class body: the constant-pool index of its name and of
its compiled function object. -/
structure MethodDecl where
  name_index : Nat
  fn_const_index : Nat
deriving DecidableEq, Repr

/-- Modelled from the spec: the method-emitting half of class_declaration is
missing from src/ (the compiler.c in the snapshot is a stale revision that
rejects non-empty class bodies even though vm.c executes OP_NEW_METHOD).
Per spec 4.2, each method body is compiled as a function — emitting the
closure instruction that wraps the stored function constant — and then
NEW_METHOD binds it on the class. -/
def compile_method (m : MethodDecl) : List ClassOp :=
  [ClassOp.NEW_CLOSURE m.fn_const_index, ClassOp.NEW_METHOD m.name_index]

/-- Modelled from the spec: "class C { method* } — emit NEW_CLASS; for each
method body, compile as a function then emit NEW_METHOD". -/
def class_declaration (class_name_index : Nat) (methods : List MethodDecl) :
    List ClassOp :=
  ClassOp.NEW_CLASS class_name_index :: (methods.map compile_method).flatten

/-- Whether an opcode is NEW_METHOD. -/
def ClassOp.isNewMethod : ClassOp → Bool
  | ClassOp.NEW_METHOD _ => true
  | _ => false

/-- The method name bound by a NEW_METHOD opcode, if any. -/
def ClassOp.methodName : ClassOp → Option Nat
  | ClassOp.NEW_METHOD n => some n
  | _ => none

/-! # Theorems -/

/-! ## C9: list pop -/

/-- C9: calling pop() on an empty list raises no VM runtime error: the
native returns normally with nil (never the error sentinel), writes one
error line to stderr and leaves the list untouched; on a non-empty list it
removes and returns the last element, shrinking the count by exactly one
with no stderr output. -/
theorem lox_list__pop_spec (arr : List Value) :
    (arr = [] →
      lox_list__pop arr =
        (Value.nil, arr, ["Error: Cannot remove elements from an empty list."]) ∧
      (lox_list__pop arr).1 ≠ Value.error) ∧
    (∀ (l : List Value) (v : Value), arr = l ++ [v] →
      lox_list__pop arr = (v, l, []) ∧ arr.length - 1 = l.length) := by
  constructor
  · rintro rfl
    exact ⟨rfl, by simp [lox_list__pop]⟩
  · rintro l v rfl
    refine ⟨?_, by simp⟩
    have hlen : (l ++ [v]).length = l.length + 1 := by simp
    simp [lox_list__pop, value_array__pop, hlen]

/-- Witness for C9 at concrete inputs. -/
theorem lox_list__pop_spec_witness :
    lox_list__pop [] =
      (Value.nil, [], ["Error: Cannot remove elements from an empty list."]) ∧
    lox_list__pop [Value.number 1, Value.number 2] =
      (Value.number 2, [Value.number 1], []) :=
  ⟨((lox_list__pop_spec []).1 rfl).1,
   ((lox_list__pop_spec [Value.number 1, Value.number 2]).2
      [Value.number 1] (Value.number 2) rfl).1⟩

/-! ## C7: the open-upvalue list -/

theorem capture_upvalue_subset (loc : Nat) (l : List Nat) :
    ∀ x ∈ capture_upvalue loc l, x = loc ∨ x ∈ l := by
  induction l with
  | nil => simp [capture_upvalue]
  | cons u rest ih =>
    intro x hx
    simp only [capture_upvalue] at hx
    by_cases h1 : loc < u
    · simp only [if_pos h1, List.mem_cons] at hx
      rcases hx with rfl | hx
      · exact Or.inr (List.mem_cons_self _ _)
      · rcases ih x hx with h | h
        · exact Or.inl h
        · exact Or.inr (List.mem_cons_of_mem _ h)
    · by_cases h2 : u = loc
      · simp only [if_neg h1, if_pos h2, List.mem_cons] at hx
        rcases hx with rfl | hx
        · exact Or.inr (List.mem_cons_self _ _)
        · exact Or.inr (List.mem_cons_of_mem _ hx)
      · simp only [if_neg h1, if_neg h2, List.mem_cons] at hx
        rcases hx with rfl | rfl | hx
        · exact Or.inl rfl
        · exact Or.inr (List.mem_cons_self _ _)
        · exact Or.inr (List.mem_cons_of_mem _ hx)

theorem capture_upvalue_mem (loc : Nat) (l : List Nat) :
    loc ∈ capture_upvalue loc l := by
  induction l with
  | nil => simp [capture_upvalue]
  | cons u rest ih =>
    simp only [capture_upvalue]
    by_cases h1 : loc < u
    · simpa [if_pos h1] using Or.inr ih
    · by_cases h2 : u = loc
      · simp [if_neg h1, if_pos h2, h2]
      · simp [if_neg h1, if_neg h2]

theorem capture_upvalue_sorted (loc : Nat) (l : List Nat)
    (h : l.Pairwise (fun a b => b < a)) :
    (capture_upvalue loc l).Pairwise (fun a b => b < a) := by
  induction l with
  | nil => simp [capture_upvalue]
  | cons u rest ih =>
    rcases List.pairwise_cons.mp h with ⟨hu, hrest⟩
    simp only [capture_upvalue]
    by_cases h1 : loc < u
    · rw [if_pos h1]
      refine List.pairwise_cons.mpr ⟨?_, ih hrest⟩
      intro x hx
      rcases capture_upvalue_subset loc rest x hx with rfl | hx
      · exact h1
      · exact hu x hx
    · by_cases h2 : u = loc
      · rw [if_neg h1, if_pos h2]; exact h
      · rw [if_neg h1, if_neg h2]
        have huloc : u < loc := by omega
        refine List.pairwise_cons.mpr ⟨?_, h⟩
        intro x hx
        rcases List.mem_cons.mp hx with rfl | hx
        · exact huloc
        · exact lt_trans (hu x hx) huloc

theorem capture_upvalue_of_mem (loc : Nat) (l : List Nat)
    (h : l.Pairwise (fun a b => b < a)) (hm : loc ∈ l) :
    capture_upvalue loc l = l := by
  induction l with
  | nil => cases hm
  | cons u rest ih =>
    rcases List.pairwise_cons.mp h with ⟨hu, hrest⟩
    simp only [capture_upvalue]
    by_cases h1 : loc < u
    · rw [if_pos h1]
      have : loc ∈ rest := by
        rcases List.mem_cons.mp hm with rfl | hx
        · omega
        · exact hx
      rw [ih hrest this]
    · by_cases h2 : u = loc
      · rw [if_neg h1, if_pos h2]
      · exfalso
        rcases List.mem_cons.mp hm with rfl | hx
        · exact h2 rfl
        · exact h1 (hu loc hx)

theorem close_upvalues_sublist (last : Nat) (l : List Nat) :
    (close_upvalues last l).Sublist l := by
  induction l with
  | nil => simp [close_upvalues]
  | cons u rest ih =>
    simp only [close_upvalues]
    by_cases h1 : last ≤ u
    · rw [if_pos h1]
      exact ih.trans (List.sublist_cons_self u rest)
    · rw [if_neg h1]

/-- C7: the open-upvalue list invariant — strictly descending slot
addresses, hence at most one open upvalue per slot (Nodup) — is preserved
by capture_upvalue, which reuses the existing upvalue when the slot is
already captured (the list is returned unchanged) and otherwise splices the
new slot in sorted position; close_upvalues only removes entries. -/
theorem open_upvalue_list_invariant (l : List Nat) (loc last : Nat)
    (h : l.Pairwise (fun a b => b < a)) :
    (capture_upvalue loc l).Pairwise (fun a b => b < a) ∧
    (capture_upvalue loc l).Nodup ∧
    loc ∈ capture_upvalue loc l ∧
    (loc ∈ l → capture_upvalue loc l = l) ∧
    (close_upvalues last l).Sublist l ∧
    (close_upvalues last l).Pairwise (fun a b => b < a) ∧
    (close_upvalues last l).Nodup := by
  have hc := capture_upvalue_sorted loc l h
  have hcl := h.sublist (close_upvalues_sublist last l)
  refine ⟨hc, hc.imp ?_, capture_upvalue_mem loc l,
    capture_upvalue_of_mem loc l h, close_upvalues_sublist last l, hcl,
    hcl.imp ?_⟩ <;>
  · intro a b hab
    omega

/-- Witness for C7 on a concrete sorted open-upvalue list. -/
theorem open_upvalue_list_invariant_witness :
    ([9, 7, 3] : List Nat).Pairwise (fun a b => b < a) ∧
    capture_upvalue 5 [9, 7, 3] = [9, 7, 5, 3] ∧
    (capture_upvalue 5 [9, 7, 3]).Pairwise (fun a b => b < a) ∧
    capture_upvalue 7 [9, 7, 3] = [9, 7, 3] := by
  have h : ([9, 7, 3] : List Nat).Pairwise (fun a b => b < a) := by decide
  refine ⟨h, by decide, (open_upvalue_list_invariant [9, 7, 3] 5 0 h).1,
    (open_upvalue_list_invariant [9, 7, 3] 7 0 h).2.2.2.1 (by decide)⟩

/-! ## C6: the arity check -/

/-- C6: a call with n arguments passes the arity check of is_valid_call iff
min_arity ≤ n ≤ arity, where compute_min_arity drops trailing defaulted
parameters; outside that range is_valid_call reports an arity runtime error
and the call does not proceed (no frame is pushed). -/
theorem arity_check_spec (sig : CallableSignature) (n frames : Nat) :
    (arity_check sig n = none ↔
      compute_min_arity sig ≤ n ∧ n ≤ sig.arity) ∧
    (¬(compute_min_arity sig ≤ n ∧ n ≤ sig.arity) →
      ∃ msg, arity_check sig n = some msg ∧
        is_valid_call sig n frames = some msg ∧
        call_closure sig n frames = none) := by
  constructor
  · unfold arity_check
    by_cases h : n < compute_min_arity sig ∨ n > sig.arity
    · rw [if_pos h]
      simp only [reduceCtorEq, false_iff]
      omega
    · rw [if_neg h]
      simp only [true_iff]
      omega
  · intro hn
    have h : n < compute_min_arity sig ∨ n > sig.arity := by omega
    have ha : arity_check sig n =
        some (if compute_min_arity sig = sig.arity then
          "Expected " ++ toString sig.arity ++ " argument" ++
            (if sig.arity = 1 then "" else "s") ++ " but got " ++ toString n
        else
          "Expected between " ++ toString (compute_min_arity sig) ++ " and " ++
            toString sig.arity ++ " arguments but got " ++ toString n) := by
      unfold arity_check
      rw [if_pos h]
    exact ⟨_, ha, by simp [is_valid_call, ha], by simp [call_closure, is_valid_call, ha]⟩

/-- Witness for C6: list.slice has arity 2 with one trailing default, so
min_arity is 1; a zero-argument call is rejected with an arity error and a
one-argument call passes. -/
theorem arity_check_spec_witness :
    compute_min_arity ⟨2, some [⟨"start", "int", none⟩, ⟨"end", "int", some "nil"⟩]⟩ = 1 ∧
    ¬((1 : Nat) ≤ 0 ∧ (0 : Nat) ≤ 2) ∧
    (∃ msg,
      arity_check ⟨2, some [⟨"start", "int", none⟩, ⟨"end", "int", some "nil"⟩]⟩ 0 = some msg ∧
      is_valid_call ⟨2, some [⟨"start", "int", none⟩, ⟨"end", "int", some "nil"⟩]⟩ 0 1 = some msg ∧
      call_closure ⟨2, some [⟨"start", "int", none⟩, ⟨"end", "int", some "nil"⟩]⟩ 0 1 = none) ∧
    arity_check ⟨2, some [⟨"start", "int", none⟩, ⟨"end", "int", some "nil"⟩]⟩ 1 = none :=
  ⟨by decide, by decide,
   (arity_check_spec ⟨2, some [⟨"start", "int", none⟩, ⟨"end", "int", some "nil"⟩]⟩ 0 1).2
     (by decide),
   (arity_check_spec ⟨2, some [⟨"start", "int", none⟩, ⟨"end", "int", some "nil"⟩]⟩ 1 1).1.mpr
     (by decide)⟩

/-! ## C3: class declarations (spec-modelled) -/

/-- C3: compiling a class declaration emits NEW_CLASS first, and one
NEW_METHOD per method of the class body, in order, each preceded by the
compiled method function; the compilation is total (always succeeds). -/
theorem class_declaration_spec (n : Nat) (ms : List MethodDecl) :
    (class_declaration n ms).countP ClassOp.isNewMethod = ms.length ∧
    (class_declaration n ms).filterMap ClassOp.methodName =
      ms.map MethodDecl.name_index ∧
    (class_declaration n ms).head? = some (ClassOp.NEW_CLASS n) := by
  have hcount : ∀ ms : List MethodDecl,
      ((ms.map compile_method).flatten).countP ClassOp.isNewMethod = ms.length := by
    intro ms
    induction ms with
    | nil => rfl
    | cons m rest ih =>
      simp only [List.map_cons, List.flatten_cons, List.countP_append, ih]
      simp [compile_method, List.countP_cons, ClassOp.isNewMethod]
      omega
  have hnames : ∀ ms : List MethodDecl,
      ((ms.map compile_method).flatten).filterMap ClassOp.methodName =
        ms.map MethodDecl.name_index := by
    intro ms
    induction ms with
    | nil => rfl
    | cons m rest ih =>
      simp only [List.map_cons, List.flatten_cons, List.filterMap_append, ih]
      simp [compile_method, List.filterMap_cons, ClassOp.methodName]
  refine ⟨?_, ?_, rfl⟩
  · simp only [class_declaration, List.countP_cons, hcount]
    rfl
  · simp only [class_declaration, List.filterMap_cons, hnames]
    rfl

/-! ## C1: the Error sentinel and the value stack -/

/-- C1 counterexample: calling the native list method at() with the
out-of-range index 5 on the one-element list object 0 — the stack holds the
receiver below the argument — makes call_native succeed (control returns to
the dispatch loop) with the VAL_ERROR sentinel left on the value stack. -/
theorem call_native_error_on_stack :
    call_native
        ⟨⟨1, some [⟨"index", "int", none⟩]⟩, true, lox_list__at [[Value.number 1]]⟩
        1 1 [Value.number 5, Value.object 0] = some [Value.error] ∧
    Value.error ∈ [Value.error] := by
  constructor
  · rfl
  · exact List.mem_singleton.mpr rfl

/-- C1 amended: call_native pushes whatever value the native returns, so
when a native (such as list.at on an out-of-range index) returns the Error
sentinel, the sentinel is left on the value stack as the result of the call
for subsequent instructions to consume. -/
theorem call_native_pushes_error (native : NativeFn) (n f : Nat)
    (stack : List Value)
    (hvalid : is_valid_call native.signature n f = none)
    (herr : native.fn ((stack.take (n + if native.is_method then 1 else 0)).reverse) =
      Value.error) :
    call_native native n f stack = some (Value.error :: stack.drop (n + 1)) := by
  simp only [call_native, hvalid, herr]

/-- Witness for C1 at a concrete zero-argument native returning the Error
sentinel. -/
theorem call_native_pushes_error_witness :
    is_valid_call (⟨0, none⟩ : CallableSignature) 0 0 = none ∧
    call_native ⟨⟨0, none⟩, false, fun _ => Value.error⟩ 0 0 [Value.nil] =
      some (Value.error :: []) :=
  ⟨rfl, call_native_pushes_error ⟨⟨0, none⟩, false, fun _ => Value.error⟩ 0 0
    [Value.nil] rfl rfl⟩

/-! ## C4: GET_INDEX / SET_INDEX -/

/-- C4 counterexample: executing GET_INDEX on an empty list produces the
runtime error message "Cannot access elements in empty list.", not the
canonical out-of-range message the claim requires for every out-of-range
index. -/
theorem op_get_index_empty_message :
    op_get_index [[]] [Value.number 0, Value.object 0] =
      Except.error ("Cannot access elements in empty list.") ∧
    ("Cannot access elements in empty list." : String) ≠
      canonical_index_error 0 0 := by
  constructor
  · rfl
  · decide

/-- Evaluation lemmas for the index-resolution helpers, shared by the two
halves of the C4 theorem. -/
theorem validate_integer_index_ok (q : Rat) (h : q.den = 1) :
    validate_integer_index (Value.number q) = Except.ok q.num := by
  show (if q.den = 1 then Except.ok q.num
    else Except.error ("List index must be an integer.")) = Except.ok q.num
  rw [if_pos h]

theorem validate_integer_index_err (q : Rat) (h : q.den ≠ 1) :
    validate_integer_index (Value.number q) =
      Except.error ("List index must be an integer.") := by
  show (if q.den = 1 then Except.ok q.num
      else Except.error ("List index must be an integer.")) =
    Except.error ("List index must be an integer.")
  rw [if_neg h]

theorem normalize_list_index_ok (i : Int) (M : Nat) (hM : M ≠ 0)
    (h : 0 ≤ (if i < 0 then (M : Int) + i else i) ∧
      (if i < 0 then (M : Int) + i else i) < (M : Int)) :
    normalize_list_index i M =
      Except.ok (if i < 0 then (M : Int) + i else i).toNat := by
  unfold normalize_list_index
  rw [if_neg hM, if_neg (by omega :
    ¬((if i < 0 then (M : Int) + i else i) < 0 ∨
      (if i < 0 then (M : Int) + i else i) ≥ (M : Int)))]

theorem normalize_list_index_out (i : Int) (M : Nat) (hM : M ≠ 0)
    (h : (if i < 0 then (M : Int) + i else i) < 0 ∨
      (M : Int) ≤ (if i < 0 then (M : Int) + i else i)) :
    normalize_list_index i M = Except.error (canonical_index_error i M) := by
  unfold normalize_list_index
  rw [if_neg hM, if_pos (by omega :
    ((if i < 0 then (M : Int) + i else i) < 0 ∨
      (if i < 0 then (M : Int) + i else i) ≥ (M : Int)))]

/-- The GET_INDEX half of C4 as a lemma: receiver checking, integer-index
checking, negative-index normalization, both error messages and the
successful push. -/
theorem op_get_index_spec (heap : List (List Value)) (id : Nat) (q : Rat)
    (rest : List Value) (hid : id < heap.length) :
    (q.den ≠ 1 →
      op_get_index heap (Value.number q :: Value.object id :: rest) =
        Except.error ("List index must be an integer.")) ∧
    ((heap.getD id []).length = 0 → q.den = 1 →
      op_get_index heap (Value.number q :: Value.object id :: rest) =
        Except.error ("Cannot access elements in empty list.")) ∧
    (∀ M : Nat, (heap.getD id []).length = M → 0 < M → q.den = 1 →
      ((0 ≤ (if q.num < 0 then (M : Int) + q.num else q.num) ∧
          (if q.num < 0 then (M : Int) + q.num else q.num) < (M : Int)) →
        op_get_index heap (Value.number q :: Value.object id :: rest) =
          Except.ok
            ((heap.getD id []).getD
              (if q.num < 0 then (M : Int) + q.num else q.num).toNat Value.nil
              :: rest)) ∧
      (((if q.num < 0 then (M : Int) + q.num else q.num) < 0 ∨
          (M : Int) ≤ (if q.num < 0 then (M : Int) + q.num else q.num)) →
        op_get_index heap (Value.number q :: Value.object id :: rest) =
          Except.error (canonical_index_error q.num M))) ∧
    (∀ (v w : Value) (rest2 : List Value), (∀ j, w ≠ Value.object j) →
      op_get_index heap (v :: w :: rest2) =
        Except.error ("Only lists support index access.")) ∧
    (∀ (v : Value) (jd : Nat) (rest2 : List Value), heap.length ≤ jd →
      op_get_index heap (v :: Value.object jd :: rest2) =
        Except.error ("Only lists support index access.")) := by
  refine ⟨?_, ?_, ?_, ?_, ?_⟩
  · intro hden
    simp only [op_get_index, resolve_list_index, List.getD_cons_zero,
      List.getD_cons_succ, if_pos hid, validate_integer_index_err q hden]
  · intro hlen hden
    have h0 : normalize_list_index q.num (heap.getD id []).length =
        Except.error ("Cannot access elements in empty list.") := by
      unfold normalize_list_index
      rw [if_pos hlen]
    simp only [op_get_index, resolve_list_index, List.getD_cons_zero,
      List.getD_cons_succ, if_pos hid, validate_integer_index_ok q hden, h0]
  · intro M hM hMpos hden
    have hne : M ≠ 0 := by omega
    constructor
    · intro hin
      simp only [op_get_index, resolve_list_index, List.getD_cons_zero,
        List.getD_cons_succ, if_pos hid, validate_integer_index_ok q hden, hM,
        normalize_list_index_ok q.num M hne hin, List.drop_succ_cons,
        List.drop_zero]
    · intro hout
      simp only [op_get_index, resolve_list_index, List.getD_cons_zero,
        List.getD_cons_succ, if_pos hid, validate_integer_index_ok q hden, hM,
        normalize_list_index_out q.num M hne hout]
  · intro v w rest2 hw
    cases w with
    | object j => exact absurd rfl (hw j)
    | nil => rfl
    | bool b => rfl
    | number q2 => rfl
    | error => rfl
  · intro v jd rest2 hjd
    simp only [op_get_index, resolve_list_index, List.getD_cons_zero,
      List.getD_cons_succ, if_neg (Nat.not_lt.mpr hjd)]

/-- C4 amended: for every execution of GET_INDEX and of SET_INDEX the
receiver must be a List and the index a numeric integer; a negative integer
index i on a non-empty list of length M is interpreted as M + i; every
out-of-range index on a non-empty list produces the canonical runtime
error message, while any index applied to an empty list produces the
distinct message "Cannot access elements in empty list.".  GET_INDEX pushes
the selected element; SET_INDEX stores the popped value at the normalized
index and pushes it back. -/
theorem op_index_spec (heap : List (List Value)) (id : Nat) (q : Rat)
    (val : Value) (rest : List Value) (hid : id < heap.length) :
    ((q.den ≠ 1 →
      op_get_index heap (Value.number q :: Value.object id :: rest) =
        Except.error ("List index must be an integer.")) ∧
    ((heap.getD id []).length = 0 → q.den = 1 →
      op_get_index heap (Value.number q :: Value.object id :: rest) =
        Except.error ("Cannot access elements in empty list.")) ∧
    (∀ M : Nat, (heap.getD id []).length = M → 0 < M → q.den = 1 →
      ((0 ≤ (if q.num < 0 then (M : Int) + q.num else q.num) ∧
          (if q.num < 0 then (M : Int) + q.num else q.num) < (M : Int)) →
        op_get_index heap (Value.number q :: Value.object id :: rest) =
          Except.ok
            ((heap.getD id []).getD
              (if q.num < 0 then (M : Int) + q.num else q.num).toNat Value.nil
              :: rest)) ∧
      (((if q.num < 0 then (M : Int) + q.num else q.num) < 0 ∨
          (M : Int) ≤ (if q.num < 0 then (M : Int) + q.num else q.num)) →
        op_get_index heap (Value.number q :: Value.object id :: rest) =
          Except.error (canonical_index_error q.num M))) ∧
    (∀ (v w : Value) (rest2 : List Value), (∀ j, w ≠ Value.object j) →
      op_get_index heap (v :: w :: rest2) =
        Except.error ("Only lists support index access.")) ∧
    (∀ (v : Value) (jd : Nat) (rest2 : List Value), heap.length ≤ jd →
      op_get_index heap (v :: Value.object jd :: rest2) =
        Except.error ("Only lists support index access."))) ∧
    (q.den ≠ 1 →
      op_set_index heap (val :: Value.number q :: Value.object id :: rest) =
        Except.error ("List index must be an integer.")) ∧
    ((heap.getD id []).length = 0 → q.den = 1 →
      op_set_index heap (val :: Value.number q :: Value.object id :: rest) =
        Except.error ("Cannot access elements in empty list.")) ∧
    (∀ M : Nat, (heap.getD id []).length = M → 0 < M → q.den = 1 →
      ((0 ≤ (if q.num < 0 then (M : Int) + q.num else q.num) ∧
          (if q.num < 0 then (M : Int) + q.num else q.num) < (M : Int)) →
        op_set_index heap (val :: Value.number q :: Value.object id :: rest) =
          Except.ok
            (heap.set id ((heap.getD id []).set
              (if q.num < 0 then (M : Int) + q.num else q.num).toNat val),
             val :: rest)) ∧
      (((if q.num < 0 then (M : Int) + q.num else q.num) < 0 ∨
          (M : Int) ≤ (if q.num < 0 then (M : Int) + q.num else q.num)) →
        op_set_index heap (val :: Value.number q :: Value.object id :: rest) =
          Except.error (canonical_index_error q.num M))) ∧
    (∀ (u v w : Value) (rest2 : List Value), (∀ j, w ≠ Value.object j) →
      op_set_index heap (u :: v :: w :: rest2) =
        Except.error ("Only lists support index assignment.")) ∧
    (∀ (u v : Value) (jd : Nat) (rest2 : List Value), heap.length ≤ jd →
      op_set_index heap (u :: v :: Value.object jd :: rest2) =
        Except.error ("Only lists support index assignment.")) := by
  refine ⟨op_get_index_spec heap id q rest hid, ?_, ?_, ?_, ?_, ?_⟩
  · intro hden
    simp only [op_set_index, resolve_list_index, List.getD_cons_zero,
      List.getD_cons_succ, if_pos hid, validate_integer_index_err q hden]
  · intro hlen hden
    have h0 : normalize_list_index q.num (heap.getD id []).length =
        Except.error ("Cannot access elements in empty list.") := by
      unfold normalize_list_index
      rw [if_pos hlen]
    simp only [op_set_index, resolve_list_index, List.getD_cons_zero,
      List.getD_cons_succ, if_pos hid, validate_integer_index_ok q hden, h0]
  · intro M hM hMpos hden
    have hne : M ≠ 0 := by omega
    constructor
    · intro hin
      simp only [op_set_index, resolve_list_index, List.getD_cons_zero,
        List.getD_cons_succ, if_pos hid, validate_integer_index_ok q hden, hM,
        normalize_list_index_ok q.num M hne hin, List.drop_succ_cons,
        List.drop_zero]
    · intro hout
      simp only [op_set_index, resolve_list_index, List.getD_cons_zero,
        List.getD_cons_succ, if_pos hid, validate_integer_index_ok q hden, hM,
        normalize_list_index_out q.num M hne hout]
  · intro u v w rest2 hw
    cases w with
    | object j => exact absurd rfl (hw j)
    | nil => rfl
    | bool b => rfl
    | number q2 => rfl
    | error => rfl
  · intro u v jd rest2 hjd
    simp only [op_set_index, resolve_list_index, List.getD_cons_zero,
      List.getD_cons_succ, if_neg (Nat.not_lt.mpr hjd)]

/-- Witness for C4 on a two-element list: GET_INDEX at -1 reads the last
element and at 2 yields the canonical out-of-range message; SET_INDEX at -1
overwrites the last element and pushes the assigned value, and at 2 yields
the canonical message. -/
theorem op_index_spec_witness :
    op_get_index [[Value.number 7, Value.number 8]]
        [Value.number (-1), Value.object 0] =
      Except.ok [Value.number 8] ∧
    op_get_index [[Value.number 7, Value.number 8]]
        [Value.number 2, Value.object 0] =
      Except.error (canonical_index_error 2 2) ∧
    op_set_index [[Value.number 7, Value.number 8]]
        [Value.number 9, Value.number (-1), Value.object 0] =
      Except.ok ([[Value.number 7, Value.number 9]], [Value.number 9]) ∧
    op_set_index [[Value.number 7, Value.number 8]]
        [Value.number 9, Value.number 2, Value.object 0] =
      Except.error (canonical_index_error 2 2) := by
  refine ⟨?_, ?_, ?_, ?_⟩
  · have h := (((op_index_spec [[Value.number 7, Value.number 8]] 0 (-1)
      Value.nil [] (by decide)).1.2.2.1 2 rfl (by decide) (by decide)).1
      (by decide))
    simpa using h
  · have h := (((op_index_spec [[Value.number 7, Value.number 8]] 0 2
      Value.nil [] (by decide)).1.2.2.1 2 rfl (by decide) (by decide)).2
      (by decide))
    simpa using h
  · have h := (((op_index_spec [[Value.number 7, Value.number 8]] 0 (-1)
      (Value.number 9) [] (by decide)).2.2.2.1 2 rfl (by decide) (by decide)).1
      (by decide))
    simpa using h
  · have h := (((op_index_spec [[Value.number 7, Value.number 8]] 0 2
      (Value.number 9) [] (by decide)).2.2.2.1 2 rfl (by decide) (by decide)).2
      (by decide))
    simpa using h

/-! ## The hash-table probe: supporting lemmas -/

theorem slotAt_set_self : ∀ (l : List Entry) (i : Nat) (e : Entry),
    i < l.length → slotAt (l.set i e) i = e := by
  intro l
  induction l with
  | nil => intro i e h; cases h
  | cons a t ih =>
    intro i e h
    cases i with
    | zero => rfl
    | succ j => exact ih j e (Nat.lt_of_succ_lt_succ h)

theorem slotAt_set_ne : ∀ (l : List Entry) (i j : Nat) (e : Entry),
    i ≠ j → slotAt (l.set i e) j = slotAt l j := by
  intro l
  induction l with
  | nil => intro i j e _; cases i <;> rfl
  | cons a t ih =>
    intro i j e h
    cases i with
    | zero =>
      cases j with
      | zero => exact absurd rfl h
      | succ j2 => rfl
    | succ i2 =>
      cases j with
      | zero => rfl
      | succ j2 => exact ih i2 j2 e (fun hc => h (by rw [hc]))

theorem countP_set (p : Entry → Bool) : ∀ (l : List Entry) (i : Nat) (e : Entry),
    i < l.length →
    (l.set i e).countP p + (if p (slotAt l i) then 1 else 0) =
      l.countP p + (if p e then 1 else 0) := by
  intro l
  induction l with
  | nil => intro i e h; cases h
  | cons a t ih =>
    intro i e h
    cases i with
    | zero =>
      show (e :: t).countP p + _ = _
      have hslot : slotAt (a :: t) 0 = a := rfl
      rw [hslot]
      simp only [List.countP_cons]
      omega
    | succ j =>
      have := ih j e (Nat.lt_of_succ_lt_succ h)
      show (a :: t.set j e).countP p + _ = _
      have hslot : slotAt (a :: t) (j + 1) = slotAt t j := rfl
      rw [hslot]
      simp only [List.countP_cons]
      omega

/-- One unfolding step of the probe loop. -/
theorem find_entry_loop_succ (entries : List Entry) (cap key fuel idx : Nat)
    (tomb : Option Nat) :
    find_entry_loop entries cap key (fuel + 1) idx tomb =
      match (slotAt entries idx).key with
      | none =>
        if (slotAt entries idx).value = Value.nil then some (tomb.getD idx)
        else
          find_entry_loop entries cap key fuel ((idx + 1) % cap)
            (if tomb = none then some idx else tomb)
      | some k =>
        if k = key then some idx
        else find_entry_loop entries cap key fuel ((idx + 1) % cap) tomb := rfl

/-- The probe step when the current bucket has no key. -/
theorem find_entry_loop_step_none (entries : List Entry) (cap key fuel idx : Nat)
    (tomb : Option Nat) (hk : (slotAt entries idx).key = none) :
    find_entry_loop entries cap key (fuel + 1) idx tomb =
      if (slotAt entries idx).value = Value.nil then some (tomb.getD idx)
      else
        find_entry_loop entries cap key fuel ((idx + 1) % cap)
          (if tomb = none then some idx else tomb) := by
  simp only [find_entry_loop_succ, hk]

/-- The probe step when the current bucket holds a key. -/
theorem find_entry_loop_step_some (entries : List Entry) (cap key fuel idx k : Nat)
    (tomb : Option Nat) (hk : (slotAt entries idx).key = some k) :
    find_entry_loop entries cap key (fuel + 1) idx tomb =
      if k = key then some idx
      else find_entry_loop entries cap key fuel ((idx + 1) % cap) tomb := by
  simp only [find_entry_loop_succ, hk]

/-- The tombstone accumulator only ever records NULL-key buckets. -/
theorem tomb_update_sound (entries : List Entry) (idx : Nat) (tomb : Option Nat)
    (htomb : ∀ t, tomb = some t → (slotAt entries t).key = none)
    (hk : (slotAt entries idx).key = none) :
    ∀ t, (if tomb = none then some idx else tomb) = some t →
      (slotAt entries t).key = none := by
  intro t ht
  cases htc : tomb with
  | none =>
    rw [htc, if_pos rfl] at ht
    injection ht with ht
    subst ht
    exact hk
  | some t0 =>
    rw [htc, if_neg (by simp)] at ht
    injection ht with ht
    subst ht
    exact htomb t0 htc

/-- The probe returns either the bucket holding the key or a NULL-key
bucket (an empty entry or a recycled tombstone). -/
theorem find_entry_loop_result_key (entries : List Entry) (cap key : Nat) :
    ∀ (fuel idx : Nat) (tomb : Option Nat) (i : Nat),
      (∀ t, tomb = some t → (slotAt entries t).key = none) →
      find_entry_loop entries cap key fuel idx tomb = some i →
      (slotAt entries i).key = some key ∨ (slotAt entries i).key = none := by
  intro fuel
  induction fuel with
  | zero => intro idx tomb i _ h; cases h
  | succ fuel ih =>
    intro idx tomb i htomb h
    cases hk : (slotAt entries idx).key with
    | none =>
      rw [find_entry_loop_step_none entries cap key fuel idx tomb hk] at h
      by_cases hv : (slotAt entries idx).value = Value.nil
      · rw [if_pos hv] at h
        injection h with h
        subst h
        cases htc : tomb with
        | none => right; simpa [htc] using hk
        | some t0 =>
          right
          have := htomb t0 htc
          simpa [htc] using this
      · rw [if_neg hv] at h
        exact ih ((idx + 1) % cap) _ i (tomb_update_sound entries idx tomb htomb hk) h
    | some k =>
      rw [find_entry_loop_step_some entries cap key fuel idx k tomb hk] at h
      by_cases hke : k = key
      · rw [if_pos hke] at h
        injection h with h
        subst h
        left
        rw [hk, hke]
      · rw [if_neg hke] at h
        exact ih ((idx + 1) % cap) tomb i htomb h

/-- Once a tombstone is recorded, a NULL-key result can only be that
tombstone. -/
theorem find_entry_loop_tomb_result (entries : List Entry) (cap key : Nat) :
    ∀ (fuel idx t0 i : Nat),
      find_entry_loop entries cap key fuel idx (some t0) = some i →
      (slotAt entries i).key = none → i = t0 := by
  intro fuel
  induction fuel with
  | zero => intro idx t0 i h _; cases h
  | succ fuel ih =>
    intro idx t0 i h hkey
    cases hk : (slotAt entries idx).key with
    | none =>
      rw [find_entry_loop_step_none entries cap key fuel idx (some t0) hk] at h
      by_cases hv : (slotAt entries idx).value = Value.nil
      · rw [if_pos hv] at h
        injection h with h
        simp only [Option.getD_some] at h
        omega
      · rw [if_neg hv, if_neg (by simp)] at h
        exact ih _ t0 i h hkey
    | some k =>
      rw [find_entry_loop_step_some entries cap key fuel idx k (some t0) hk] at h
      by_cases hke : k = key
      · rw [if_pos hke] at h
        injection h with h
        subst h
        rw [hk] at hkey
        cases hkey
      · rw [if_neg hke] at h
        exact ih _ t0 i h hkey

theorem probe_shift_mod (cap idx j : Nat) :
    ((idx + 1) % cap + j) % cap = (idx + (j + 1)) % cap := by
  rw [Nat.mod_add_mod]
  congr 1
  omega

theorem probe_pos_inj (cap s a b : Nat) (ha : a < cap) (hb : b < cap)
    (h : (s + a) % cap = (s + b) % cap) : a = b := by
  have h1 : (s + a) ≡ (s + b) [MOD cap] := h
  have h2 : a ≡ b [MOD cap] := Nat.ModEq.add_left_cancel' s h1
  have h3 : a % cap = b % cap := h2
  rwa [Nat.mod_eq_of_lt ha, Nat.mod_eq_of_lt hb] at h3

theorem probe_wrap (cap s e : Nat) (hcap : 0 < cap) (hs : s < cap) (he : e < cap) :
    ∃ j, j < cap ∧ (s + j) % cap = e := by
  refine ⟨(cap + e - s) % cap, Nat.mod_lt _ hcap, ?_⟩
  rw [Nat.add_mod_mod]
  have h2 : s + (cap + e - s) = cap + e := by omega
  rw [h2, Nat.add_mod_left, Nat.mod_eq_of_lt he]

/-- A probe that ends in a key match walked only over used buckets with
other keys or tombstones. -/
theorem find_entry_loop_match_prefix (entries : List Entry) (cap key : Nat)
    (hcap : 0 < cap) :
    ∀ (fuel idx : Nat) (tomb : Option Nat) (i : Nat),
      idx < cap →
      (∀ t, tomb = some t → (slotAt entries t).key = none) →
      find_entry_loop entries cap key fuel idx tomb = some i →
      (slotAt entries i).key = some key →
      ∃ m, m < fuel ∧ i = (idx + m) % cap ∧
        ∀ j, j < m → Entry.continuesFor (slotAt entries ((idx + j) % cap)) key := by
  intro fuel
  induction fuel with
  | zero => intro idx tomb i _ _ h _; cases h
  | succ fuel ih =>
    intro idx tomb i hidx htomb h hkey
    cases hk : (slotAt entries idx).key with
    | none =>
      rw [find_entry_loop_step_none entries cap key fuel idx tomb hk] at h
      by_cases hv : (slotAt entries idx).value = Value.nil
      · rw [if_pos hv] at h
        injection h with h
        subst h
        exfalso
        cases htc : tomb with
        | none =>
          rw [htc] at hkey
          simp only [Option.getD_none] at hkey
          rw [hk] at hkey
          cases hkey
        | some t0 =>
          rw [htc] at hkey
          simp only [Option.getD_some] at hkey
          rw [htomb t0 htc] at hkey
          cases hkey
      · rw [if_neg hv] at h
        obtain ⟨m, hm, hi, hpre⟩ :=
          ih ((idx + 1) % cap) _ i (Nat.mod_lt _ hcap)
            (tomb_update_sound entries idx tomb htomb hk) h hkey
        refine ⟨m + 1, by omega, ?_, ?_⟩
        · rw [hi, probe_shift_mod]
        · intro j hj
          cases j with
          | zero =>
            have : (idx + 0) % cap = idx := by
              rw [Nat.add_zero, Nat.mod_eq_of_lt hidx]
            rw [this]
            constructor
            · rw [hk]; simp
            · simp [Entry.isFree, hk, hv]
          | succ j2 =>
            have := hpre j2 (by omega)
            rwa [probe_shift_mod] at this
    | some k =>
      rw [find_entry_loop_step_some entries cap key fuel idx k tomb hk] at h
      by_cases hke : k = key
      · rw [if_pos hke] at h
        injection h with h
        subst h
        refine ⟨0, by omega, ?_, by omega⟩
        rw [Nat.add_zero, Nat.mod_eq_of_lt hidx]
      · rw [if_neg hke] at h
        obtain ⟨m, hm, hi, hpre⟩ :=
          ih ((idx + 1) % cap) tomb i (Nat.mod_lt _ hcap) htomb h hkey
        refine ⟨m + 1, by omega, ?_, ?_⟩
        · rw [hi, probe_shift_mod]
        · intro j hj
          cases j with
          | zero =>
            have : (idx + 0) % cap = idx := by
              rw [Nat.add_zero, Nat.mod_eq_of_lt hidx]
            rw [this]
            constructor
            · rw [hk]; simp [hke]
            · simp [Entry.isFree, hk]
          | succ j2 =>
            have := hpre j2 (by omega)
            rwa [probe_shift_mod] at this

/-- A probe started without a tombstone that ends in a NULL-key bucket
walked only over used buckets with other keys. -/
theorem find_entry_loop_none_prefix (entries : List Entry) (cap key : Nat)
    (hcap : 0 < cap) :
    ∀ (fuel idx : Nat) (i : Nat),
      idx < cap →
      find_entry_loop entries cap key fuel idx none = some i →
      (slotAt entries i).key = none →
      ∃ m, m < fuel ∧ i = (idx + m) % cap ∧
        ∀ j, j < m → Entry.continuesFor (slotAt entries ((idx + j) % cap)) key := by
  intro fuel
  induction fuel with
  | zero => intro idx i _ h _; cases h
  | succ fuel ih =>
    intro idx i hidx h hkey
    cases hk : (slotAt entries idx).key with
    | none =>
      rw [find_entry_loop_step_none entries cap key fuel idx none hk] at h
      by_cases hv : (slotAt entries idx).value = Value.nil
      · rw [if_pos hv] at h
        injection h with h
        rw [Option.getD_none] at h
        subst h
        refine ⟨0, by omega, ?_, by omega⟩
        rw [Nat.add_zero, Nat.mod_eq_of_lt hidx]
      · rw [if_neg hv, if_pos rfl] at h
        have := find_entry_loop_tomb_result entries cap key fuel
          ((idx + 1) % cap) idx i h hkey
        subst this
        refine ⟨0, by omega, ?_, by omega⟩
        rw [Nat.add_zero, Nat.mod_eq_of_lt hidx]
    | some k =>
      rw [find_entry_loop_step_some entries cap key fuel idx k none hk] at h
      by_cases hke : k = key
      · rw [if_pos hke] at h
        injection h with h
        subst h
        rw [hk] at hkey
        cases hkey
      · rw [if_neg hke] at h
        obtain ⟨m, hm, hi, hpre⟩ := ih ((idx + 1) % cap) i (Nat.mod_lt _ hcap) h hkey
        refine ⟨m + 1, by omega, ?_, ?_⟩
        · rw [hi, probe_shift_mod]
        · intro j hj
          cases j with
          | zero =>
            have h0 : (idx + 0) % cap = idx := by
              rw [Nat.add_zero, Nat.mod_eq_of_lt hidx]
            rw [h0]
            constructor
            · rw [hk]; simp [hke]
            · simp [Entry.isFree, hk]
          | succ j2 =>
            have := hpre j2 (by omega)
            rwa [probe_shift_mod] at this

/-- If the first m buckets of the probe sequence are used-with-other-key or
tombstones and bucket m holds the key, the probe returns bucket m. -/
theorem find_entry_loop_walk (entries : List Entry) (cap key : Nat)
    (hcap : 0 < cap) :
    ∀ (m fuel idx : Nat) (tomb : Option Nat), m < fuel → idx < cap →
      (∀ j, j < m → Entry.continuesFor (slotAt entries ((idx + j) % cap)) key) →
      (slotAt entries ((idx + m) % cap)).key = some key →
      find_entry_loop entries cap key fuel idx tomb = some ((idx + m) % cap) := by
  intro m
  induction m with
  | zero =>
    intro fuel idx tomb hfuel hidx _ hkey
    cases fuel with
    | zero => omega
    | succ fuel =>
      have h0 : (idx + 0) % cap = idx := by
        rw [Nat.add_zero, Nat.mod_eq_of_lt hidx]
      rw [h0] at hkey ⊢
      rw [find_entry_loop_step_some entries cap key fuel idx key tomb hkey,
        if_pos rfl]
  | succ m ih =>
    intro fuel idx tomb hfuel hidx hpre hkey
    cases fuel with
    | zero => omega
    | succ fuel =>
      have h0 : (idx + 0) % cap = idx := by
        rw [Nat.add_zero, Nat.mod_eq_of_lt hidx]
      have hc0 := hpre 0 (by omega)
      rw [h0] at hc0
      have hshift : ∀ j, j < m →
          Entry.continuesFor (slotAt entries (((idx + 1) % cap + j) % cap)) key := by
        intro j hj
        rw [probe_shift_mod]
        exact hpre (j + 1) (by omega)
      have htarget : (slotAt entries (((idx + 1) % cap + m) % cap)).key = some key := by
        rw [probe_shift_mod]
        exact hkey
      have hres : (idx + (m + 1)) % cap = ((idx + 1) % cap + m) % cap := by
        rw [probe_shift_mod]
      cases hk : (slotAt entries idx).key with
      | none =>
        have hv : ¬(slotAt entries idx).value = Value.nil := by
          intro hv
          have : (slotAt entries idx).isFree = true := by
            simp [Entry.isFree, hk, hv]
          rw [hc0.2] at this
          cases this
        rw [find_entry_loop_step_none entries cap key fuel idx tomb hk, if_neg hv]
        rw [hres]
        exact ih fuel ((idx + 1) % cap) _ (by omega) (Nat.mod_lt _ hcap) hshift htarget
      | some k =>
        have hke : k ≠ key := by
          intro hkk
          subst hkk
          exact hc0.1 hk
        rw [find_entry_loop_step_some entries cap key fuel idx k tomb hk, if_neg hke]
        rw [hres]
        exact ih fuel ((idx + 1) % cap) tomb (by omega) (Nat.mod_lt _ hcap) hshift htarget

/-- The probe terminates (returns a bucket) whenever an empty bucket lies
within its fuel. -/
theorem find_entry_loop_isSome (entries : List Entry) (cap key : Nat)
    (hcap : 0 < cap) :
    ∀ (fuel idx : Nat) (tomb : Option Nat), idx < cap →
      (∃ j, j < fuel ∧ (slotAt entries ((idx + j) % cap)).isFree = true) →
      (find_entry_loop entries cap key fuel idx tomb).isSome := by
  intro fuel
  induction fuel with
  | zero => intro idx tomb _ ⟨j, hj, _⟩; omega
  | succ fuel ih =>
    intro idx tomb hidx ⟨j, hj, hfree⟩
    have h0 : (idx + 0) % cap = idx := by
      rw [Nat.add_zero, Nat.mod_eq_of_lt hidx]
    cases hk : (slotAt entries idx).key with
    | none =>
      by_cases hv : (slotAt entries idx).value = Value.nil
      · rw [find_entry_loop_step_none entries cap key fuel idx tomb hk, if_pos hv]
        rfl
      · rw [find_entry_loop_step_none entries cap key fuel idx tomb hk, if_neg hv]
        have hj0 : j ≠ 0 := by
          intro hj0
          subst hj0
          rw [h0] at hfree
          have : (slotAt entries idx).isFree = false := by
            simp [Entry.isFree, hk, hv]
          rw [this] at hfree
          cases hfree
        refine ih ((idx + 1) % cap) _ (Nat.mod_lt _ hcap) ⟨j - 1, by omega, ?_⟩
        rw [probe_shift_mod]
        have : j - 1 + 1 = j := by omega
        rw [this]
        exact hfree
    | some k =>
      by_cases hke : k = key
      · rw [find_entry_loop_step_some entries cap key fuel idx k tomb hk, if_pos hke]
        rfl
      · rw [find_entry_loop_step_some entries cap key fuel idx k tomb hk, if_neg hke]
        have hj0 : j ≠ 0 := by
          intro hj0
          subst hj0
          rw [h0] at hfree
          have : (slotAt entries idx).isFree = false := by
            simp [Entry.isFree, hk]
          rw [this] at hfree
          cases hfree
        refine ih ((idx + 1) % cap) tomb (Nat.mod_lt _ hcap) ⟨j - 1, by omega, ?_⟩
        rw [probe_shift_mod]
        have : j - 1 + 1 = j := by omega
        rw [this]
        exact hfree

theorem slotAt_eq_getElem (l : List Entry) (i : Nat) (h : i < l.length) :
    slotAt l i = l[i] := by
  simp [slotAt, List.getD_eq_getElem?_getD, List.getElem?_eq_getElem h]

theorem slotAt_of_le_length (l : List Entry) (i : Nat) (h : l.length ≤ i) :
    slotAt l i = Entry.free := by
  simp [slotAt, List.getD_eq_getElem?_getD, List.getElem?_eq_none h]

/-- A table whose occupied count is below capacity keeps an empty bucket. -/
theorem exists_free_slot (entries : List Entry)
    (h : occupied entries < entries.length) :
    ∃ e, e < entries.length ∧ (slotAt entries e).isFree = true := by
  by_contra hc
  push_neg at hc
  have hall : ∀ a ∈ entries, (!a.isFree) = true := by
    intro a ha
    obtain ⟨i, hi, rfl⟩ := List.mem_iff_getElem.mp ha
    have := hc i hi
    rw [slotAt_eq_getElem entries i hi] at this
    simp only [Bool.not_eq_true] at this ⊢
    rw [this]
    rfl
  have : occupied entries = entries.length := by
    unfold occupied
    exact List.countP_eq_length.mpr hall
  omega

/-- The full-capacity probe of find_entry terminates whenever the table
keeps an empty bucket. -/
theorem find_entry_list_isSome (hashOf : Nat → Nat) (entries : List Entry)
    (key : Nat) (hlen : 0 < entries.length)
    (hocc : occupied entries < entries.length) :
    ∃ i, find_entry_list hashOf entries key = some i := by
  obtain ⟨e, he, hef⟩ := exists_free_slot entries hocc
  obtain ⟨j, hj, hje⟩ :=
    probe_wrap entries.length (hashOf key % entries.length) e hlen
      (Nat.mod_lt _ hlen) he
  have hs := find_entry_loop_isSome entries entries.length key hlen
    entries.length (hashOf key % entries.length) none (Nat.mod_lt _ hlen)
    ⟨j, hj, by rw [hje]; exact hef⟩
  exact Option.isSome_iff_exists.mp hs

/-- The bucket find_entry returns holds either the key or no key at all. -/
theorem find_entry_list_result_key (hashOf : Nat → Nat) (entries : List Entry)
    (key i : Nat) (h : find_entry_list hashOf entries key = some i) :
    (slotAt entries i).key = some key ∨ (slotAt entries i).key = none :=
  find_entry_loop_result_key entries entries.length key entries.length
    (hashOf key % entries.length) none i (by intro t ht; cases ht) h

/-- A match result survives table updates that keep the probe prefix
walkable and the matched bucket matching. -/
theorem find_match_stable (hashOf : Nat → Nat) (entries entries' : List Entry)
    (key i : Nat) (hlen : 0 < entries.length)
    (hlen' : entries'.length = entries.length)
    (hfind : find_entry_list hashOf entries key = some i)
    (hkey : (slotAt entries i).key = some key)
    (hpres : ∀ p, Entry.continuesFor (slotAt entries p) key →
      Entry.continuesFor (slotAt entries' p) key)
    (hi : slotAt entries' i = slotAt entries i ∨ (slotAt entries' i).key = some key) :
    find_entry_list hashOf entries' key = some i := by
  obtain ⟨m, hm, hieq, hpre⟩ :=
    find_entry_loop_match_prefix entries entries.length key hlen
      entries.length (hashOf key % entries.length) none i
      (Nat.mod_lt _ hlen) (by intro t ht; cases ht) hfind hkey
  have hkey' : (slotAt entries' i).key = some key := by
    cases hi with
    | inl h => rw [h]; exact hkey
    | inr h => exact h
  unfold find_entry_list
  rw [hlen']
  rw [hieq] at hkey' ⊢
  exact find_entry_loop_walk entries' entries.length key hlen m entries.length
    (hashOf key % entries.length) none hm (Nat.mod_lt _ hlen)
    (fun j hj => hpres _ (hpre j hj)) hkey'

/-- After inserting the key into the NULL-key bucket the probe returned,
the probe finds exactly that bucket. -/
theorem find_entry_list_insert (hashOf : Nat → Nat) (entries : List Entry)
    (key i : Nat) (v : Value) (hlen : 0 < entries.length)
    (hfind : find_entry_list hashOf entries key = some i)
    (hkey : (slotAt entries i).key = none) :
    find_entry_list hashOf (entries.set i ⟨some key, v⟩) key = some i := by
  obtain ⟨m, hm, hieq, hpre⟩ :=
    find_entry_loop_none_prefix entries entries.length key hlen
      entries.length (hashOf key % entries.length) i
      (Nat.mod_lt _ hlen) hfind hkey
  have hi_lt : i < entries.length := by
    rw [hieq]
    exact Nat.mod_lt _ hlen
  unfold find_entry_list
  rw [List.length_set]
  nth_rewrite 2 [hieq]
  refine find_entry_loop_walk _ entries.length key hlen m entries.length
    (hashOf key % entries.length) none hm (Nat.mod_lt _ hlen) ?_ ?_
  · intro j hj
    have hne : i ≠ (hashOf key % entries.length + j) % entries.length := by
      rw [hieq]
      intro hc
      exact absurd (probe_pos_inj entries.length _ m j hm
        (Nat.lt_trans hj hm) hc) (by omega)
    rw [slotAt_set_ne entries i _ _ hne]
    exact hpre j hj
  · rw [← hieq, slotAt_set_self entries i _ hi_lt]

/-! ## C10: find_entry termination -/

/-- C10: for every table in the load-factor invariant state
(count = occupied buckets, 4 * count ≤ 3 * capacity, positive capacity),
the linear probe of find_entry terminates for every key within one sweep of
the bucket array, returning either the bucket holding the key or a NULL-key
bucket, so the unreachable assertion after the loop is never hit. -/
theorem find_entry_terminates (hashOf : Nat → Nat) (t : Table) (key : Nat)
    (hcount : t.count = occupied t.entries)
    (hload : 4 * t.count ≤ 3 * t.entries.length)
    (hcap : 0 < t.entries.length) :
    ∃ i, find_entry_list hashOf t.entries key = some i ∧
      ((slotAt t.entries i).key = some key ∨ (slotAt t.entries i).key = none) := by
  have hocc : occupied t.entries < t.entries.length := by omega
  obtain ⟨i, hi⟩ := find_entry_list_isSome hashOf t.entries key hcap hocc
  exact ⟨i, hi, find_entry_list_result_key hashOf t.entries key i hi⟩

/-- Witness for C10: an empty 8-bucket table (as produced by the first
grow) satisfies the invariant and the probe terminates. -/
theorem find_entry_terminates_witness :
    (⟨0, allocate_entries 8⟩ : Table).count =
      occupied (⟨0, allocate_entries 8⟩ : Table).entries ∧
    4 * (⟨0, allocate_entries 8⟩ : Table).count ≤
      3 * (⟨0, allocate_entries 8⟩ : Table).entries.length ∧
    0 < (⟨0, allocate_entries 8⟩ : Table).entries.length ∧
    ∃ i, find_entry_list (fun _ => 5) (⟨0, allocate_entries 8⟩ : Table).entries 42 =
        some i ∧
      ((slotAt (⟨0, allocate_entries 8⟩ : Table).entries i).key = some 42 ∨
        (slotAt (⟨0, allocate_entries 8⟩ : Table).entries i).key = none) :=
  ⟨by decide, by decide, by decide,
    find_entry_terminates (fun _ => 5) ⟨0, allocate_entries 8⟩ 42
      (by decide) (by decide) (by decide)⟩

/-! ## Bucket bookkeeping lemmas -/

theorem slot_lt_of_key (entries : List Entry) (i k : Nat)
    (h : (slotAt entries i).key = some k) : i < entries.length := by
  by_contra hc
  push_neg at hc
  rw [slotAt_of_le_length entries i hc] at h
  cases h

theorem slot_lt_of_nonfree (entries : List Entry) (i : Nat)
    (h : (slotAt entries i).isFree = false) : i < entries.length := by
  by_contra hc
  push_neg at hc
  rw [slotAt_of_le_length entries i hc] at h
  cases h

theorem isFree_of_key_some (e : Entry) (k : Nat) (h : e.key = some k) :
    e.isFree = false := by
  simp [Entry.isFree, h]

theorem occupied_pos (entries : List Entry) (i : Nat)
    (h : (slotAt entries i).isFree = false) : 0 < occupied entries := by
  have hi := slot_lt_of_nonfree entries i h
  rw [slotAt_eq_getElem entries i hi] at h
  unfold occupied
  refine List.countP_pos_iff.mpr ⟨entries[i], entries.getElem_mem hi, ?_⟩
  rw [h]
  rfl

theorem occupied_set_insert (entries : List Entry) (i : Nat) (e : Entry)
    (hi : i < entries.length) (hfree : (slotAt entries i).isFree = true)
    (he : e.isFree = false) :
    occupied (entries.set i e) = occupied entries + 1 := by
  have h := countP_set (fun x => !x.isFree) entries i e hi
  simp only [hfree, he, Bool.not_true, Bool.not_false] at h
  simp at h
  unfold occupied
  omega

theorem occupied_set_keep (entries : List Entry) (i : Nat) (e : Entry)
    (hi : i < entries.length) (hnf : (slotAt entries i).isFree = false)
    (he : e.isFree = false) :
    occupied (entries.set i e) = occupied entries := by
  have h := countP_set (fun x => !x.isFree) entries i e hi
  simp only [hnf, he, Bool.not_false] at h
  simp at h
  unfold occupied
  omega

theorem usedCount_le_occupied (entries : List Entry) :
    usedCount entries ≤ occupied entries := by
  unfold usedCount occupied
  refine List.countP_mono_left ?_
  intro e _ he
  cases hk : e.key with
  | none => rw [hk] at he; cases he
  | some k => simp [Entry.isFree, hk]

/-! ## Rebuilding the bucket array (adjust_capacity) -/

/-- The fold of copy_entries_from preserves the bucket-array invariants:
starting from a tombstone-free array with room for the remaining used
entries, re-inserting distinct keys keeps every inserted key findable at its
own bucket and introduces no other keys. -/
theorem copy_fold_spec (hashOf : Nat → Nat) (B : Nat) :
    ∀ (rem : List Entry) (acc : List Entry × Nat),
      0 < acc.1.length →
      B < acc.1.length →
      rem.Pairwise (fun a b => ∀ k, a.key = some k → b.key ≠ some k) →
      acc.2 + rem.countP (fun e => e.key.isSome) ≤ B →
      occupied acc.1 = acc.2 →
      (∀ j, (slotAt acc.1 j).key = none → (slotAt acc.1 j).value = Value.nil) →
      (∀ k, (∃ j, (slotAt acc.1 j).key = some k) →
        (∀ e ∈ rem, e.key ≠ some k) ∧
        ∃ j, find_entry_list hashOf acc.1 k = some j ∧
          (slotAt acc.1 j).key = some k) →
      (rem.foldl
        (fun acc e =>
          match e.key with
          | none => acc
          | some k =>
            match find_entry_list hashOf acc.1 k with
            | none => acc
            | some i => (acc.1.set i ⟨some k, e.value⟩, acc.2 + 1))
        acc).1.length = acc.1.length ∧
      occupied (rem.foldl
        (fun acc e =>
          match e.key with
          | none => acc
          | some k =>
            match find_entry_list hashOf acc.1 k with
            | none => acc
            | some i => (acc.1.set i ⟨some k, e.value⟩, acc.2 + 1))
        acc).1 = (rem.foldl
        (fun acc e =>
          match e.key with
          | none => acc
          | some k =>
            match find_entry_list hashOf acc.1 k with
            | none => acc
            | some i => (acc.1.set i ⟨some k, e.value⟩, acc.2 + 1))
        acc).2 ∧
      (rem.foldl
        (fun acc e =>
          match e.key with
          | none => acc
          | some k =>
            match find_entry_list hashOf acc.1 k with
            | none => acc
            | some i => (acc.1.set i ⟨some k, e.value⟩, acc.2 + 1))
        acc).2 ≤ B ∧
      (∀ k, (∃ j, (slotAt (rem.foldl
        (fun acc e =>
          match e.key with
          | none => acc
          | some k =>
            match find_entry_list hashOf acc.1 k with
            | none => acc
            | some i => (acc.1.set i ⟨some k, e.value⟩, acc.2 + 1))
        acc).1 j).key = some k) →
        ∃ j, find_entry_list hashOf (rem.foldl
          (fun acc e =>
            match e.key with
            | none => acc
            | some k =>
              match find_entry_list hashOf acc.1 k with
              | none => acc
              | some i => (acc.1.set i ⟨some k, e.value⟩, acc.2 + 1))
          acc).1 k = some j ∧
          (slotAt (rem.foldl
            (fun acc e =>
              match e.key with
              | none => acc
              | some k =>
                match find_entry_list hashOf acc.1 k with
                | none => acc
                | some i => (acc.1.set i ⟨some k, e.value⟩, acc.2 + 1))
            acc).1 j).key = some k) ∧
      (∀ k, (∃ j, (slotAt (rem.foldl
        (fun acc e =>
          match e.key with
          | none => acc
          | some k =>
            match find_entry_list hashOf acc.1 k with
            | none => acc
            | some i => (acc.1.set i ⟨some k, e.value⟩, acc.2 + 1))
        acc).1 j).key = some k) →
        (∃ j, (slotAt acc.1 j).key = some k) ∨ (∃ e ∈ rem, e.key = some k)) ∧
      (∀ k, ((∃ j, (slotAt acc.1 j).key = some k) ∨ (∃ e ∈ rem, e.key = some k)) →
        ∃ j, (slotAt (rem.foldl
          (fun acc e =>
            match e.key with
            | none => acc
            | some k =>
              match find_entry_list hashOf acc.1 k with
              | none => acc
              | some i => (acc.1.set i ⟨some k, e.value⟩, acc.2 + 1))
          acc).1 j).key = some k) := by
  intro rem
  induction rem with
  | nil =>
    intro acc hlen hB _ hcnt hocc _ hfind
    refine ⟨rfl, hocc, by simpa using hcnt, ?_, ?_, ?_⟩
    · intro k hk
      exact (hfind k hk).2
    · intro k hk
      exact Or.inl hk
    · intro k hk
      rcases hk with hk | ⟨e, he, _⟩
      · exact hk
      · cases he
  | cons e rest ih =>
    intro acc hlen hB hpair hcnt hocc hnotomb hfind
    rcases List.pairwise_cons.mp hpair with ⟨hhead, htail⟩
    cases he : e.key with
    | none =>
      simp only [List.foldl_cons, he]
      have hcnt' : acc.2 + rest.countP (fun e => e.key.isSome) ≤ B := by
        have : (e :: rest).countP (fun e => e.key.isSome) =
            rest.countP (fun e => e.key.isSome) := by
          simp [List.countP_cons, he]
        omega
      have hfind' : ∀ k, (∃ j, (slotAt acc.1 j).key = some k) →
          (∀ e' ∈ rest, e'.key ≠ some k) ∧
          ∃ j, find_entry_list hashOf acc.1 k = some j ∧
            (slotAt acc.1 j).key = some k := by
        intro k hk
        obtain ⟨hdisj, hf⟩ := hfind k hk
        exact ⟨fun e' he' => hdisj e' (List.mem_cons_of_mem _ he'), hf⟩
      obtain ⟨c1, c2, c3, c4, c5, c6⟩ := ih acc hlen hB htail hcnt' hocc hnotomb hfind'
      refine ⟨c1, c2, c3, c4, ?_, ?_⟩
      · intro k hk
        rcases c5 k hk with hk2 | ⟨e', he', hke'⟩
        · exact Or.inl hk2
        · exact Or.inr ⟨e', List.mem_cons_of_mem _ he', hke'⟩
      · intro k hk
        refine c6 k ?_
        rcases hk with hk | ⟨e', he', hke'⟩
        · exact Or.inl hk
        · rcases List.mem_cons.mp he' with rfl | he2
          · rw [he] at hke'; cases hke'
          · exact Or.inr ⟨e', he2, hke'⟩
    | some k0 =>
      -- the key being re-inserted is absent from the accumulator
      have habs : ∀ j, (slotAt acc.1 j).key ≠ some k0 := by
        intro j hj
        exact (hfind k0 ⟨j, hj⟩).1 e (List.mem_cons_self _ _) he
      have hcount_cons : (e :: rest).countP (fun e => e.key.isSome) =
          rest.countP (fun e => e.key.isSome) + 1 := by
        simp [List.countP_cons, he]
      have hocc_lt : occupied acc.1 < acc.1.length := by omega
      obtain ⟨i, hfi⟩ := find_entry_list_isSome hashOf acc.1 k0 hlen hocc_lt
      have hki : (slotAt acc.1 i).key = none := by
        rcases find_entry_list_result_key hashOf acc.1 k0 i hfi with h | h
        · exact absurd h (habs i)
        · exact h
      have hfree : (slotAt acc.1 i).isFree = true := by
        simp [Entry.isFree, hki, hnotomb i hki]
      obtain ⟨m, hm, hieq, _⟩ :=
        find_entry_loop_none_prefix acc.1 acc.1.length k0 hlen acc.1.length
          (hashOf k0 % acc.1.length) i (Nat.mod_lt _ hlen) hfi hki
      have hilt : i < acc.1.length := by
        rw [hieq]
        exact Nat.mod_lt _ hlen
      simp only [List.foldl_cons, he, hfi]
      -- invariants for the extended accumulator
      have hlen' : (acc.1.set i ⟨some k0, e.value⟩).length = acc.1.length :=
        List.length_set acc.1 i _
      have hocc' : occupied (acc.1.set i ⟨some k0, e.value⟩) = acc.2 + 1 := by
        rw [occupied_set_insert acc.1 i _ hilt hfree (by simp [Entry.isFree]), hocc]
      have hnotomb' : ∀ j, (slotAt (acc.1.set i ⟨some k0, e.value⟩) j).key = none →
          (slotAt (acc.1.set i ⟨some k0, e.value⟩) j).value = Value.nil := by
        intro j hj
        by_cases hij : i = j
        · subst hij
          rw [slotAt_set_self acc.1 i _ hilt] at hj
          cases hj
        · rw [slotAt_set_ne acc.1 i j _ hij] at hj ⊢
          exact hnotomb j hj
      have hfind'' : ∀ k, (∃ j, (slotAt (acc.1.set i ⟨some k0, e.value⟩) j).key = some k) →
          (∀ e' ∈ rest, e'.key ≠ some k) ∧
          ∃ j, find_entry_list hashOf (acc.1.set i ⟨some k0, e.value⟩) k = some j ∧
            (slotAt (acc.1.set i ⟨some k0, e.value⟩) j).key = some k := by
        intro k hk
        obtain ⟨j, hj⟩ := hk
        by_cases hij : i = j
        · subst hij
          rw [slotAt_set_self acc.1 i _ hilt] at hj
          injection hj with hj
          subst hj
          refine ⟨fun e' he' => hhead e' he' k0 he, i, ?_, ?_⟩
          · exact find_entry_list_insert hashOf acc.1 k0 i e.value hlen hfi hki
          · rw [slotAt_set_self acc.1 i _ hilt]
        · rw [slotAt_set_ne acc.1 i j _ hij] at hj
          have hkk0 : k ≠ k0 := by
            intro hkc
            subst hkc
            exact habs j hj
          obtain ⟨hdisj, j', hfj', hkj'⟩ := hfind k ⟨j, hj⟩
          refine ⟨fun e' he' => hdisj e' (List.mem_cons_of_mem _ he'), j', ?_, ?_⟩
          · refine find_match_stable hashOf acc.1 _ k j' hlen hlen' hfj' hkj' ?_ ?_
            · intro p hp
              by_cases hip : i = p
              · subst hip
                have h2 := hp.2
                rw [hfree] at h2
                exact absurd h2 (by decide)
              · rwa [slotAt_set_ne acc.1 i p _ hip]
            · left
              have hij' : i ≠ j' := by
                intro hc
                subst hc
                rw [hki] at hkj'
                cases hkj'
              exact slotAt_set_ne acc.1 i j' _ hij'
          · have hij' : i ≠ j' := by
              intro hc
              subst hc
              rw [hki] at hkj'
              cases hkj'
            rw [slotAt_set_ne acc.1 i j' _ hij']
            exact hkj'
      have hcnt'' : acc.2 + 1 + rest.countP (fun e => e.key.isSome) ≤ B := by omega
      obtain ⟨c1, c2, c3, c4, c5, c6⟩ :=
        ih (acc.1.set i ⟨some k0, e.value⟩, acc.2 + 1)
          (by rw [hlen']; exact hlen) (by rw [hlen']; exact hB) htail hcnt''
          hocc' hnotomb' hfind''
      refine ⟨by rw [c1]; exact hlen', c2, c3, c4, ?_, ?_⟩
      · intro k hk
        rcases c5 k hk with ⟨j, hj⟩ | ⟨e', he', hke'⟩
        · by_cases hij : i = j
          · subst hij
            rw [slotAt_set_self acc.1 i _ hilt] at hj
            injection hj with hj
            subst hj
            exact Or.inr ⟨e, List.mem_cons_self _ _, he⟩
          · rw [slotAt_set_ne acc.1 i j _ hij] at hj
            exact Or.inl ⟨j, hj⟩
        · exact Or.inr ⟨e', List.mem_cons_of_mem _ he', hke'⟩
      · intro k hk
        refine c6 k ?_
        rcases hk with ⟨j, hj⟩ | ⟨e', he', hke'⟩
        · have hij : i ≠ j := by
            intro hc
            subst hc
            rw [hki] at hj
            cases hj
          exact Or.inl ⟨j, by rw [slotAt_set_ne acc.1 i j _ hij]; exact hj⟩
        · rcases List.mem_cons.mp he' with rfl | he2
          · rw [he] at hke'
            injection hke' with hke'
            subst hke'
            exact Or.inl ⟨i, by rw [slotAt_set_self acc.1 i _ hilt]⟩
          · exact Or.inr ⟨e', he2, hke'⟩

theorem slotAt_replicate (n j : Nat) :
    slotAt (List.replicate n Entry.free) j = Entry.free := by
  by_cases h : j < n
  · rw [slotAt_eq_getElem _ j (by simpa using h)]
    simp
  · exact slotAt_of_le_length _ j (by simpa using Nat.le_of_not_lt h)

theorem occupied_replicate (n : Nat) :
    occupied (List.replicate n Entry.free) = 0 := by
  induction n with
  | zero => rfl
  | succ m ih =>
    unfold occupied at ih ⊢
    rw [List.replicate_succ, List.countP_cons, ih]
    rfl

/-- table.c, adjust_capacity under the table invariant and the grow
trigger: the rebuilt array has the requested capacity, its count matches
its occupancy and stays below capacity, it contains exactly the used keys
of the old array, and each of them is findable at its own bucket. -/
theorem adjust_capacity_spec (hashOf : Nat → Nat) (t : Table)
    (hcount : t.count = occupied t.entries)
    (hload : 4 * t.count ≤ 3 * t.entries.length)
    (hself : ∀ i k, (slotAt t.entries i).key = some k →
      find_entry_list hashOf t.entries k = some i) :
    (adjust_capacity hashOf t (grow_capacity t.entries.length)).entries.length =
      grow_capacity t.entries.length ∧
    occupied (adjust_capacity hashOf t (grow_capacity t.entries.length)).entries =
      (adjust_capacity hashOf t (grow_capacity t.entries.length)).count ∧
    (adjust_capacity hashOf t (grow_capacity t.entries.length)).count <
      grow_capacity t.entries.length ∧
    (∀ k, (∃ j, (slotAt
        (adjust_capacity hashOf t (grow_capacity t.entries.length)).entries j).key =
          some k) →
      ∃ j, (slotAt t.entries j).key = some k) ∧
    (∀ k j, (slotAt t.entries j).key = some k →
      ∃ j', find_entry_list hashOf
          (adjust_capacity hashOf t (grow_capacity t.entries.length)).entries k =
            some j' ∧
        (slotAt (adjust_capacity hashOf t
          (grow_capacity t.entries.length)).entries j').key = some k) := by
  have hB : usedCount t.entries ≤ t.count := by
    rw [hcount]
    exact usedCount_le_occupied t.entries
  have hnewpos : 0 < grow_capacity t.entries.length := by
    unfold grow_capacity
    split <;> omega
  have hcount_lt : t.count < grow_capacity t.entries.length := by
    unfold grow_capacity
    split <;> omega
  have hpair : t.entries.Pairwise (fun a b => ∀ k, a.key = some k → b.key ≠ some k) := by
    rw [List.pairwise_iff_getElem]
    intro a b ha hb hab k hka hkb
    have h1 := hself a k (by rw [slotAt_eq_getElem t.entries a ha]; exact hka)
    have h2 := hself b k (by rw [slotAt_eq_getElem t.entries b hb]; exact hkb)
    rw [h1] at h2
    injection h2 with h2
    omega
  have hlenrep : (allocate_entries (grow_capacity t.entries.length)).length =
      grow_capacity t.entries.length := by
    simp [allocate_entries]
  have hocc0 : occupied (allocate_entries (grow_capacity t.entries.length)) = 0 :=
    occupied_replicate _
  have hnt0 : ∀ j,
      (slotAt (allocate_entries (grow_capacity t.entries.length)) j).key = none →
      (slotAt (allocate_entries (grow_capacity t.entries.length)) j).value =
        Value.nil := by
    intro j _
    rw [show allocate_entries (grow_capacity t.entries.length) =
      List.replicate (grow_capacity t.entries.length) Entry.free from rfl,
      slotAt_replicate]
    rfl
  have hfind0 : ∀ k,
      (∃ j, (slotAt (allocate_entries (grow_capacity t.entries.length)) j).key =
        some k) →
      (∀ e ∈ t.entries, e.key ≠ some k) ∧
      ∃ j, find_entry_list hashOf
          (allocate_entries (grow_capacity t.entries.length)) k = some j ∧
        (slotAt (allocate_entries (grow_capacity t.entries.length)) j).key =
          some k := by
    intro k hk
    obtain ⟨j, hj⟩ := hk
    rw [show allocate_entries (grow_capacity t.entries.length) =
      List.replicate (grow_capacity t.entries.length) Entry.free from rfl,
      slotAt_replicate] at hj
    cases hj
  obtain ⟨c1, c2, c3, c4, c5, c6⟩ :=
    copy_fold_spec hashOf (usedCount t.entries) t.entries
      (allocate_entries (grow_capacity t.entries.length), 0)
      (by rw [hlenrep]; exact hnewpos)
      (by rw [hlenrep]; omega)
      hpair
      (by simp [usedCount])
      hocc0 hnt0 hfind0
  have hused_mem : ∀ k j, (slotAt t.entries j).key = some k →
      ∃ e ∈ t.entries, e.key = some k := by
    intro k j hkj
    have hj := slot_lt_of_key t.entries j k hkj
    rw [slotAt_eq_getElem t.entries j hj] at hkj
    exact ⟨t.entries[j], t.entries.getElem_mem hj, hkj⟩
  have hfold : adjust_capacity hashOf t (grow_capacity t.entries.length) =
      ⟨(t.entries.foldl
          (fun acc e =>
            match e.key with
            | none => acc
            | some k =>
              match find_entry_list hashOf acc.1 k with
              | none => acc
              | some i => (acc.1.set i ⟨some k, e.value⟩, acc.2 + 1))
          (allocate_entries (grow_capacity t.entries.length), 0)).2,
        (t.entries.foldl
          (fun acc e =>
            match e.key with
            | none => acc
            | some k =>
              match find_entry_list hashOf acc.1 k with
              | none => acc
              | some i => (acc.1.set i ⟨some k, e.value⟩, acc.2 + 1))
          (allocate_entries (grow_capacity t.entries.length), 0)).1⟩ := rfl
  rw [hfold]
  refine ⟨by rw [c1, hlenrep], c2,
    lt_of_le_of_lt (le_trans c3 hB) hcount_lt, ?_, ?_⟩
  · intro k hk
    rcases c5 k hk with ⟨j, hj⟩ | ⟨e, he, hke⟩
    · rw [show allocate_entries (grow_capacity t.entries.length) =
        List.replicate (grow_capacity t.entries.length) Entry.free from rfl,
        slotAt_replicate] at hj
      cases hj
    · obtain ⟨j, hjlt, rfl⟩ := List.mem_iff_getElem.mp he
      exact ⟨j, by rw [slotAt_eq_getElem t.entries j hjlt]; exact hke⟩
  · intro k j hkj
    have hpresent := c6 k (Or.inr (hused_mem k j hkj))
    exact c4 k hpresent

/-! ## Evaluation lemmas for the table operations -/

theorem table__set_eval_nogrow (hashOf : Nat → Nat) (t : Table) (key i : Nat)
    (v : Value) (hg : ¬(4 * (t.count + 1) > 3 * t.entries.length))
    (hfi : find_entry_list hashOf t.entries key = some i) :
    table__set hashOf t key v =
      ((slotAt t.entries i).key.isNone,
        ⟨if (slotAt t.entries i).key = none ∧ (slotAt t.entries i).value = Value.nil
          then t.count + 1 else t.count,
        t.entries.set i ⟨some key, v⟩⟩) := by
  simp only [table__set, if_neg hg, hfi]

theorem table__set_eval_grow (hashOf : Nat → Nat) (t : Table) (key i : Nat)
    (v : Value) (hg : 4 * (t.count + 1) > 3 * t.entries.length)
    (hfi : find_entry_list hashOf
      (adjust_capacity hashOf t (grow_capacity t.entries.length)).entries key =
        some i) :
    table__set hashOf t key v =
      ((slotAt (adjust_capacity hashOf t
          (grow_capacity t.entries.length)).entries i).key.isNone,
        ⟨if (slotAt (adjust_capacity hashOf t
              (grow_capacity t.entries.length)).entries i).key = none ∧
            (slotAt (adjust_capacity hashOf t
              (grow_capacity t.entries.length)).entries i).value = Value.nil
          then (adjust_capacity hashOf t (grow_capacity t.entries.length)).count + 1
          else (adjust_capacity hashOf t (grow_capacity t.entries.length)).count,
        (adjust_capacity hashOf t
          (grow_capacity t.entries.length)).entries.set i ⟨some key, v⟩⟩) := by
  simp only [table__set, if_pos hg, hfi]

theorem table__delete_eval (hashOf : Nat → Nat) (t : Table) (key i k2 : Nat)
    (hc : t.count ≠ 0)
    (hfi : find_entry_list hashOf t.entries key = some i)
    (hk : (slotAt t.entries i).key = some k2) :
    table__delete hashOf t key =
      (true, ⟨t.count, t.entries.set i ⟨none, Value.bool true⟩⟩) := by
  simp only [table__delete, if_neg hc, hfi, hk]
  simp

theorem table__get_eval_zero (hashOf : Nat → Nat) (t : Table) (key : Nat)
    (hc : t.count = 0) : table__get hashOf t key = none := by
  simp only [table__get, if_pos hc]

theorem table__get_eval_nofind (hashOf : Nat → Nat) (t : Table) (key : Nat)
    (hfi : find_entry_list hashOf t.entries key = none) :
    table__get hashOf t key = none := by
  by_cases hc : t.count = 0
  · simp only [table__get, if_pos hc]
  · simp only [table__get, if_neg hc, hfi]

theorem table__get_eval_none (hashOf : Nat → Nat) (t : Table) (key i : Nat)
    (hfi : find_entry_list hashOf t.entries key = some i)
    (hk : (slotAt t.entries i).key = none) :
    table__get hashOf t key = none := by
  by_cases hc : t.count = 0
  · simp only [table__get, if_pos hc]
  · simp only [table__get, if_neg hc, hfi, hk]
    simp

theorem table__get_eval_some (hashOf : Nat → Nat) (t : Table) (key i k2 : Nat)
    (hc : t.count ≠ 0)
    (hfi : find_entry_list hashOf t.entries key = some i)
    (hk : (slotAt t.entries i).key = some k2) :
    table__get hashOf t key = some (slotAt t.entries i).value := by
  simp only [table__get, if_neg hc, hfi, hk]
  simp

/-- A table with no binding for the key reports none from table__get. -/
theorem table__get_absent (hashOf : Nat → Nat) (t : Table) (key : Nat)
    (habs : ∀ j, (slotAt t.entries j).key ≠ some key) :
    table__get hashOf t key = none := by
  cases hfi : find_entry_list hashOf t.entries key with
  | none => exact table__get_eval_nofind hashOf t key hfi
  | some i =>
    rcases find_entry_list_result_key hashOf t.entries key i hfi with h | h
    · exact absurd h (habs i)
    · exact table__get_eval_none hashOf t key i hfi h

/-- Inserting an absent key and deleting it again leaves the globals table
without any binding for it. -/
theorem set_delete_absent_core (hashOf : Nat → Nat) (t0 : Table) (key : Nat)
    (v : Value)
    (hlen : 0 < t0.entries.length)
    (hocc : occupied t0.entries < t0.entries.length)
    (hcnt : t0.count = occupied t0.entries)
    (habs : ∀ j, (slotAt t0.entries j).key ≠ some key) :
    ∃ i, find_entry_list hashOf t0.entries key = some i ∧
      (slotAt t0.entries i).key = none ∧
      (∀ j, (slotAt (table__delete hashOf
        (⟨if (slotAt t0.entries i).key = none ∧
              (slotAt t0.entries i).value = Value.nil
            then t0.count + 1 else t0.count,
          t0.entries.set i ⟨some key, v⟩⟩ : Table) key).2.entries j).key ≠
        some key) ∧
      table__get hashOf (table__delete hashOf
        (⟨if (slotAt t0.entries i).key = none ∧
              (slotAt t0.entries i).value = Value.nil
            then t0.count + 1 else t0.count,
          t0.entries.set i ⟨some key, v⟩⟩ : Table) key).2 key = none := by
  obtain ⟨i, hfi⟩ := find_entry_list_isSome hashOf t0.entries key hlen hocc
  have hki : (slotAt t0.entries i).key = none := by
    rcases find_entry_list_result_key hashOf t0.entries key i hfi with h | h
    · exact absurd h (habs i)
    · exact h
  obtain ⟨m, hm, hieq, _⟩ :=
    find_entry_loop_none_prefix t0.entries t0.entries.length key hlen
      t0.entries.length (hashOf key % t0.entries.length) i
      (Nat.mod_lt _ hlen) hfi hki
  have hilt : i < t0.entries.length := by
    rw [hieq]
    exact Nat.mod_lt _ hlen
  have hC1 : (if (slotAt t0.entries i).key = none ∧
      (slotAt t0.entries i).value = Value.nil
    then t0.count + 1 else t0.count) ≠ 0 := by
    by_cases hv : (slotAt t0.entries i).value = Value.nil
    · rw [if_pos ⟨hki, hv⟩]
      omega
    · rw [if_neg (fun hand => hv hand.2)]
      have : 0 < occupied t0.entries := by
        refine occupied_pos t0.entries i ?_
        simp [Entry.isFree, hki, hv]
      omega
  have hfind1 : find_entry_list hashOf (t0.entries.set i ⟨some key, v⟩) key =
      some i :=
    find_entry_list_insert hashOf t0.entries key i v hlen hfi hki
  have hkey1 : slotAt (t0.entries.set i ⟨some key, v⟩) i = ⟨some key, v⟩ :=
    slotAt_set_self t0.entries i _ hilt
  have hdel := table__delete_eval hashOf
    (⟨if (slotAt t0.entries i).key = none ∧
          (slotAt t0.entries i).value = Value.nil
        then t0.count + 1 else t0.count,
      t0.entries.set i ⟨some key, v⟩⟩ : Table) key i key hC1 hfind1
    (by rw [hkey1])
  have habs2 : ∀ j,
      (slotAt ((t0.entries.set i ⟨some key, v⟩).set i ⟨none, Value.bool true⟩) j).key ≠
        some key := by
    intro j
    by_cases hij : i = j
    · subst hij
      rw [slotAt_set_self _ i _ (by rw [List.length_set]; exact hilt)]
      simp
    · rw [slotAt_set_ne _ i j _ hij, slotAt_set_ne t0.entries i j _ hij]
      exact habs j
  refine ⟨i, hfi, hki, ?_, ?_⟩
  · rw [hdel]
    exact habs2
  · rw [hdel]
    exact table__get_absent hashOf _ key habs2

/-! ## C5: OP_SET_GLOBAL -/

/-- C5: executing SET_GLOBAL on a well-formed globals table with a name
that was never defined raises the "Undefined variable" runtime error
(the interpreter returns INTERPRET_RUNTIME_ERROR) and leaves the globals
table without any binding for that name, while SET_GLOBAL on a previously
defined name updates the binding to the assigned value and reports no
error. -/
theorem op_set_global_spec (hashOf : Nat → Nat) (t : Table) (name : Nat)
    (v : Value) (hWF : TableWF hashOf t) :
    ((∀ j, (slotAt t.entries j).key ≠ some name) →
      (op_set_global hashOf name v t).1 = some ("Undefined variable") ∧
      (∀ j, (slotAt (op_set_global hashOf name v t).2.entries j).key ≠ some name) ∧
      table__get hashOf (op_set_global hashOf name v t).2 name = none) ∧
    (∀ w, table__get hashOf t name = some w →
      (op_set_global hashOf name v t).1 = none ∧
      table__get hashOf (op_set_global hashOf name v t).2 name = some v) := by
  obtain ⟨hcount, hload, hself⟩ := hWF
  constructor
  · -- the name was never defined
    intro habs
    by_cases hg : 4 * (t.count + 1) > 3 * t.entries.length
    · -- the insertion grows the table first
      obtain ⟨a1, a2, a3, a4, a5⟩ := adjust_capacity_spec hashOf t hcount hload hself
      have hleng : 0 <
          (adjust_capacity hashOf t (grow_capacity t.entries.length)).entries.length := by
        rw [a1]
        unfold grow_capacity
        split <;> omega
      have hoccg : occupied
          (adjust_capacity hashOf t (grow_capacity t.entries.length)).entries <
          (adjust_capacity hashOf t (grow_capacity t.entries.length)).entries.length := by
        rw [a2, a1]
        exact a3
      have habsg : ∀ j, (slotAt
          (adjust_capacity hashOf t (grow_capacity t.entries.length)).entries j).key ≠
          some name := by
        intro j hj
        obtain ⟨j0, hj0⟩ := a4 name ⟨j, hj⟩
        exact habs j0 hj0
      obtain ⟨i, hfi, hki, hpost_abs, hpost_get⟩ :=
        set_delete_absent_core hashOf
          (adjust_capacity hashOf t (grow_capacity t.entries.length)) name v
          hleng hoccg a2.symm habsg
      have hset := table__set_eval_grow hashOf t name i v hg hfi
      have hb : ((slotAt (adjust_capacity hashOf t
          (grow_capacity t.entries.length)).entries i).key).isNone = true := by
        rw [hki]
        rfl
      have hop : op_set_global hashOf name v t =
          (some ("Undefined variable"),
            (table__delete hashOf
              (⟨if (slotAt (adjust_capacity hashOf t
                    (grow_capacity t.entries.length)).entries i).key = none ∧
                  (slotAt (adjust_capacity hashOf t
                    (grow_capacity t.entries.length)).entries i).value = Value.nil
                then (adjust_capacity hashOf t
                  (grow_capacity t.entries.length)).count + 1
                else (adjust_capacity hashOf t
                  (grow_capacity t.entries.length)).count,
                (adjust_capacity hashOf t
                  (grow_capacity t.entries.length)).entries.set i
                  ⟨some name, v⟩⟩ : Table) name).2) := by
        simp only [op_set_global, hset, hb, eq_self_iff_true, if_true]
      rw [hop]
      exact ⟨rfl, hpost_abs, hpost_get⟩
    · -- no growth needed
      have hlen0 : 0 < t.entries.length := by omega
      have hocc0 : occupied t.entries < t.entries.length := by omega
      obtain ⟨i, hfi, hki, hpost_abs, hpost_get⟩ :=
        set_delete_absent_core hashOf t name v hlen0 hocc0 hcount habs
      have hset := table__set_eval_nogrow hashOf t name i v hg hfi
      have hb : ((slotAt t.entries i).key).isNone = true := by
        rw [hki]
        rfl
      have hop : op_set_global hashOf name v t =
          (some ("Undefined variable"),
            (table__delete hashOf
              (⟨if (slotAt t.entries i).key = none ∧
                  (slotAt t.entries i).value = Value.nil
                then t.count + 1 else t.count,
                t.entries.set i ⟨some name, v⟩⟩ : Table) name).2) := by
        simp only [op_set_global, hset, hb, eq_self_iff_true, if_true]
      rw [hop]
      exact ⟨rfl, hpost_abs, hpost_get⟩
  · -- the name was previously defined
    intro w hget
    have hc0 : t.count ≠ 0 := by
      intro hc
      rw [table__get_eval_zero hashOf t name hc] at hget
      cases hget
    have hlen0 : 0 < t.entries.length := by
      have h1 : 0 < occupied t.entries := by omega
      have h2 : occupied t.entries ≤ t.entries.length := by
        unfold occupied
        exact List.countP_le_length _
      omega
    cases hfi : find_entry_list hashOf t.entries name with
    | none =>
      rw [table__get_eval_nofind hashOf t name hfi] at hget
      cases hget
    | some i =>
      rcases find_entry_list_result_key hashOf t.entries name i hfi with hki | hki
      case inr =>
        rw [table__get_eval_none hashOf t name i hfi hki] at hget
        cases hget
      case inl =>
        have hilt : i < t.entries.length := slot_lt_of_key t.entries i name hki
        by_cases hg : 4 * (t.count + 1) > 3 * t.entries.length
        · -- growth happens, then the rebuilt bucket is updated in place
          obtain ⟨a1, a2, a3, a4, a5⟩ :=
            adjust_capacity_spec hashOf t hcount hload hself
          obtain ⟨i2, hfi2, hki2⟩ := a5 name i hki
          have hset := table__set_eval_grow hashOf t name i2 v hg hfi2
          have hb : ((slotAt (adjust_capacity hashOf t
              (grow_capacity t.entries.length)).entries i2).key).isNone = false := by
            rw [hki2]
            rfl
          have hop : op_set_global hashOf name v t =
              (none,
                ⟨if (slotAt (adjust_capacity hashOf t
                      (grow_capacity t.entries.length)).entries i2).key = none ∧
                    (slotAt (adjust_capacity hashOf t
                      (grow_capacity t.entries.length)).entries i2).value = Value.nil
                  then (adjust_capacity hashOf t
                    (grow_capacity t.entries.length)).count + 1
                  else (adjust_capacity hashOf t
                    (grow_capacity t.entries.length)).count,
                  (adjust_capacity hashOf t
                    (grow_capacity t.entries.length)).entries.set i2
                    ⟨some name, v⟩⟩) := by
            simp only [op_set_global, hset, hb, Bool.false_eq_true, if_false]
          have hlen2 : 0 <
              (adjust_capacity hashOf t
                (grow_capacity t.entries.length)).entries.length := by
            rw [a1]
            unfold grow_capacity
            split <;> omega
          have hi2lt : i2 <
              (adjust_capacity hashOf t
                (grow_capacity t.entries.length)).entries.length :=
            slot_lt_of_key _ i2 name hki2
          have hcond : ¬((slotAt (adjust_capacity hashOf t
              (grow_capacity t.entries.length)).entries i2).key = none ∧
              (slotAt (adjust_capacity hashOf t
                (grow_capacity t.entries.length)).entries i2).value = Value.nil) := by
            intro hand
            rw [hki2] at hand
            cases hand.1
          have hcnt1 : (if (slotAt (adjust_capacity hashOf t
              (grow_capacity t.entries.length)).entries i2).key = none ∧
              (slotAt (adjust_capacity hashOf t
                (grow_capacity t.entries.length)).entries i2).value = Value.nil
            then (adjust_capacity hashOf t
              (grow_capacity t.entries.length)).count + 1
            else (adjust_capacity hashOf t
              (grow_capacity t.entries.length)).count) ≠ 0 := by
            rw [if_neg hcond]
            have : 0 < occupied (adjust_capacity hashOf t
                (grow_capacity t.entries.length)).entries :=
              occupied_pos _ i2 (isFree_of_key_some _ name hki2)
            omega
          have hfind1 : find_entry_list hashOf
              ((adjust_capacity hashOf t
                (grow_capacity t.entries.length)).entries.set i2 ⟨some name, v⟩)
              name = some i2 := by
            refine find_match_stable hashOf _ _ name i2 hlen2
              (List.length_set _ _ _) hfi2 hki2 ?_ ?_
            · intro p hp
              by_cases hip : i2 = p
              · subst hip
                exact absurd hki2 hp.1
              · rwa [slotAt_set_ne _ i2 p _ hip]
            · right
              rw [slotAt_set_self _ i2 _ hi2lt]
          rw [hop]
          refine ⟨rfl, ?_⟩
          have hg1 := table__get_eval_some hashOf
            (⟨if (slotAt (adjust_capacity hashOf t
                  (grow_capacity t.entries.length)).entries i2).key = none ∧
                (slotAt (adjust_capacity hashOf t
                  (grow_capacity t.entries.length)).entries i2).value = Value.nil
              then (adjust_capacity hashOf t
                (grow_capacity t.entries.length)).count + 1
              else (adjust_capacity hashOf t
                (grow_capacity t.entries.length)).count,
              (adjust_capacity hashOf t
                (grow_capacity t.entries.length)).entries.set i2
                ⟨some name, v⟩⟩ : Table)
            name i2 name hcnt1 hfind1
            (by rw [slotAt_set_self _ i2 _ hi2lt])
          rw [hg1, slotAt_set_self _ i2 _ hi2lt]
        · -- no growth: the existing bucket is updated in place
          have hset := table__set_eval_nogrow hashOf t name i v hg hfi
          have hb : ((slotAt t.entries i).key).isNone = false := by
            rw [hki]
            rfl
          have hop : op_set_global hashOf name v t =
              (none,
                ⟨if (slotAt t.entries i).key = none ∧
                    (slotAt t.entries i).value = Value.nil
                  then t.count + 1 else t.count,
                  t.entries.set i ⟨some name, v⟩⟩) := by
            simp only [op_set_global, hset, hb, Bool.false_eq_true, if_false]
          have hcond : ¬((slotAt t.entries i).key = none ∧
              (slotAt t.entries i).value = Value.nil) := by
            intro hand
            rw [hki] at hand
            cases hand.1
          have hcnt1 : (if (slotAt t.entries i).key = none ∧
              (slotAt t.entries i).value = Value.nil
            then t.count + 1 else t.count) ≠ 0 := by
            rw [if_neg hcond]
            exact hc0
          have hfind1 : find_entry_list hashOf
              (t.entries.set i ⟨some name, v⟩) name = some i := by
            refine find_match_stable hashOf _ _ name i hlen0
              (List.length_set _ _ _) hfi hki ?_ ?_
            · intro p hp
              by_cases hip : i = p
              · subst hip
                exact absurd hki hp.1
              · rwa [slotAt_set_ne _ i p _ hip]
            · right
              rw [slotAt_set_self _ i _ hilt]
          rw [hop]
          refine ⟨rfl, ?_⟩
          have hg1 := table__get_eval_some hashOf
            (⟨if (slotAt t.entries i).key = none ∧
                (slotAt t.entries i).value = Value.nil
              then t.count + 1 else t.count,
              t.entries.set i ⟨some name, v⟩⟩ : Table) name i name hcnt1 hfind1
            (by rw [slotAt_set_self _ i _ hilt])
          rw [hg1, slotAt_set_self _ i _ hilt]

/-- Witness for C5: an empty globals table is well formed, and assigning an
undeclared variable errors and leaves no binding behind. -/
theorem op_set_global_spec_witness :
    TableWF (fun _ => 0) ⟨0, []⟩ ∧
    (op_set_global (fun _ => 0) 42 (Value.number 7) ⟨0, []⟩).1 =
      some ("Undefined variable") ∧
    table__get (fun _ => 0) (op_set_global (fun _ => 0) 42 (Value.number 7)
      ⟨0, []⟩).2 42 = none := by
  have habs : ∀ j, (slotAt ([] : List Entry) j).key ≠ some 42 := by
    intro j h
    rw [slotAt_of_le_length ([] : List Entry) j (by simp)] at h
    cases h
  have hWF : TableWF (fun _ => 0) ⟨0, []⟩ := by
    refine ⟨by decide, by decide, ?_⟩
    intro i k h
    rw [slotAt_of_le_length ([] : List Entry) i (by simp)] at h
    cases h
  have h := (op_set_global_spec (fun _ => 0) ⟨0, []⟩ 42 (Value.number 7) hWF).1 habs
  exact ⟨hWF, h.1, h.2.2⟩

/-! ## Pruning the interned strings table (table__remove_dead_objects) -/

/-- The prefix fold of table__remove_dead_objects: processed buckets hold
only keys of still-alive objects, and the table invariants survive every
deletion. -/
theorem remove_dead_fold_spec (hashOf : Nat → Nat) (alive : Nat → Bool) :
    ∀ (n : Nat) (t : Table),
      t.count = occupied t.entries →
      (∀ i k, (slotAt t.entries i).key = some k →
        find_entry_list hashOf t.entries k = some i) →
      ((List.range n).foldl
        (fun acc i =>
          match (slotAt acc.entries i).key with
          | some k => if alive k then acc else (table__delete hashOf acc k).2
          | none => acc) t).entries.length = t.entries.length ∧
      ((List.range n).foldl
        (fun acc i =>
          match (slotAt acc.entries i).key with
          | some k => if alive k then acc else (table__delete hashOf acc k).2
          | none => acc) t).count =
        occupied ((List.range n).foldl
        (fun acc i =>
          match (slotAt acc.entries i).key with
          | some k => if alive k then acc else (table__delete hashOf acc k).2
          | none => acc) t).entries ∧
      (∀ i k, (slotAt ((List.range n).foldl
        (fun acc i =>
          match (slotAt acc.entries i).key with
          | some k => if alive k then acc else (table__delete hashOf acc k).2
          | none => acc) t).entries i).key = some k →
        find_entry_list hashOf ((List.range n).foldl
        (fun acc i =>
          match (slotAt acc.entries i).key with
          | some k => if alive k then acc else (table__delete hashOf acc k).2
          | none => acc) t).entries k = some i) ∧
      (∀ j k, j < n → (slotAt ((List.range n).foldl
        (fun acc i =>
          match (slotAt acc.entries i).key with
          | some k => if alive k then acc else (table__delete hashOf acc k).2
          | none => acc) t).entries j).key = some k → alive k = true) := by
  intro n
  induction n with
  | zero =>
    intro t hcnt hself
    exact ⟨rfl, hcnt, hself, fun j k hj _ => absurd hj (by omega)⟩
  | succ n ih =>
    intro t hcnt hself
    obtain ⟨c1, c2, c3, c4⟩ := ih t hcnt hself
    rw [List.range_succ, List.foldl_append, List.foldl_cons, List.foldl_nil]
    cases hk : (slotAt ((List.range n).foldl
        (fun acc i =>
          match (slotAt acc.entries i).key with
          | some k => if alive k then acc else (table__delete hashOf acc k).2
          | none => acc) t).entries n).key with
    | none =>
      simp only [hk]
      refine ⟨c1, c2, c3, ?_⟩
      intro j k hj hkey
      by_cases hjn : j = n
      · subst hjn
        rw [hk] at hkey
        cases hkey
      · exact c4 j k (by omega) hkey
    | some k0 =>
      by_cases ha : alive k0
      · simp only [hk, if_pos ha]
        refine ⟨c1, c2, c3, ?_⟩
        intro j k hj hkey
        by_cases hjn : j = n
        · subst hjn
          rw [hk] at hkey
          injection hkey with hkey
          subst hkey
          exact ha
        · exact c4 j k (by omega) hkey
      · simp only [hk, if_neg ha]
        -- delete the dead key; it lives in bucket n
        have hfind := c3 n k0 hk
        have hcne : ((List.range n).foldl
            (fun acc i =>
              match (slotAt acc.entries i).key with
              | some k => if alive k then acc else (table__delete hashOf acc k).2
              | none => acc) t).count ≠ 0 := by
          rw [c2]
          have := occupied_pos _ n (isFree_of_key_some _ k0 hk)
          omega
        have hdel := table__delete_eval hashOf _ k0 n k0 hcne hfind hk
        rw [hdel]
        have hnlt : n < ((List.range n).foldl
            (fun acc i =>
              match (slotAt acc.entries i).key with
              | some k => if alive k then acc else (table__delete hashOf acc k).2
              | none => acc) t).entries.length :=
          slot_lt_of_key _ n k0 hk
        have hlen2 : (((List.range n).foldl
            (fun acc i =>
              match (slotAt acc.entries i).key with
              | some k => if alive k then acc else (table__delete hashOf acc k).2
              | none => acc) t).entries.set n ⟨none, Value.bool true⟩).length =
            t.entries.length := by
          rw [List.length_set]
          exact c1
        refine ⟨hlen2, ?_, ?_, ?_⟩
        · rw [occupied_set_keep _ n _ hnlt (isFree_of_key_some _ k0 hk) (by decide)]
          exact c2
        · intro j k hkey
          have hjn : n ≠ j := by
            intro hc
            subst hc
            rw [slotAt_set_self _ n _ hnlt] at hkey
            cases hkey
          rw [slotAt_set_ne _ n j _ hjn] at hkey
          have hkk0 : k ≠ k0 := by
            intro hc
            subst hc
            have := c3 j k hkey
            rw [hfind] at this
            injection this with this
            subst this
            rw [hk] at hkey
            injection hkey with hkey
            exact hjn rfl
          refine find_match_stable hashOf _ _ k j
            (by omega) (by rw [List.length_set]) (c3 j k hkey) hkey ?_ ?_
          · intro p hp
            by_cases hnp : n = p
            · subst hnp
              rw [slotAt_set_self _ n _ hnlt]
              exact ⟨by simp, by decide⟩
            · rwa [slotAt_set_ne _ n p _ hnp]
          · left
            exact slotAt_set_ne _ n j _ hjn
        · intro j k hj hkey
          by_cases hjn : n = j
          · subst hjn
            rw [slotAt_set_self _ n _ hnlt] at hkey
            cases hkey
          · rw [slotAt_set_ne _ n j _ hjn] at hkey
            exact c4 j k (by omega) hkey

/-- table.c, table__remove_dead_objects leaves only entries whose key
object is still alive (and keeps the table well formed). -/
theorem table__remove_dead_objects_spec (hashOf : Nat → Nat) (alive : Nat → Bool)
    (t : Table)
    (hcnt : t.count = occupied t.entries)
    (hself : ∀ i k, (slotAt t.entries i).key = some k →
      find_entry_list hashOf t.entries k = some i) :
    ∀ i k, (slotAt (table__remove_dead_objects hashOf alive t).entries i).key =
      some k → alive k = true := by
  obtain ⟨c1, _, _, c4⟩ :=
    remove_dead_fold_spec hashOf alive t.entries.length t hcnt hself
  intro i k hkey
  have hr : table__remove_dead_objects hashOf alive t =
      (List.range t.entries.length).foldl
        (fun acc i =>
          match (slotAt acc.entries i).key with
          | some k => if alive k then acc else (table__delete hashOf acc k).2
          | none => acc) t := rfl
  rw [hr] at hkey
  have hi : i < t.entries.length := by
    rw [← c1]
    exact slot_lt_of_key _ i k hkey
  exact c4 i k hi hkey

/-! ## Marking soundness (memory.c) -/

theorem skel_refl (s : List GcObj) :
    List.Forall₂ (fun a b => a.id = b.id ∧ a.refs = b.refs) s s := by
  induction s with
  | nil => exact List.Forall₂.nil
  | cons a t ih => exact List.Forall₂.cons ⟨rfl, rfl⟩ ih

theorem skel_setAlive (s : List GcObj) (id : Nat) :
    List.Forall₂ (fun a b => a.id = b.id ∧ a.refs = b.refs) (setAlive s id) s := by
  induction s with
  | nil => exact List.Forall₂.nil
  | cons a t ih =>
    unfold setAlive
    rw [List.map_cons]
    refine List.Forall₂.cons ?_ ih
    by_cases h : a.id = id
    · rw [if_pos h]
      exact ⟨rfl, rfl⟩
    · rw [if_neg h]
      exact ⟨rfl, rfl⟩

theorem skel_trans (a b c : List GcObj)
    (hab : List.Forall₂ (fun x y => x.id = y.id ∧ x.refs = y.refs) a b)
    (hbc : List.Forall₂ (fun x y => x.id = y.id ∧ x.refs = y.refs) b c) :
    List.Forall₂ (fun x y => x.id = y.id ∧ x.refs = y.refs) a c := by
  induction hab generalizing c with
  | nil => cases hbc; exact List.Forall₂.nil
  | cons hxy _ ih =>
    cases hbc with
    | cons hyz htail =>
      exact List.Forall₂.cons ⟨hxy.1.trans hyz.1, hxy.2.trans hyz.2⟩ (ih _ htail)

theorem skel_lookup (s s0 : List GcObj) (i : Nat) (o : GcObj)
    (hskel : List.Forall₂ (fun a b => a.id = b.id ∧ a.refs = b.refs) s s0)
    (h : lookupObj s i = some o) :
    ∃ o0, lookupObj s0 i = some o0 ∧ o.id = o0.id ∧ o.refs = o0.refs := by
  induction hskel with
  | nil => cases h
  | cons hxy htail ih =>
    rename_i x y xs ys
    unfold lookupObj at h ⊢
    rw [List.find?_cons] at h ⊢
    by_cases hx : x.id = i
    · have hb : (x.id == i) = true := by simp [hx]
      rw [hb] at h
      injection h with h
      subst h
      have hy : (y.id == i) = true := by simp [← hxy.1, hx]
      rw [hy]
      exact ⟨y, rfl, hxy.1, hxy.2⟩
    · have hb : (x.id == i) = false := by simp [hx]
      rw [hb] at h
      have hy : (y.id == i) = false := by simp [← hxy.1, hx]
      rw [hy]
      exact ih h

theorem mark_object_sound (store0 : List GcObj) (roots : List Nat) (g : GcState)
    (id : Nat)
    (hskel : List.Forall₂ (fun a b => a.id = b.id ∧ a.refs = b.refs) g.store store0)
    (halive : ∀ o ∈ g.store, o.alive = true → Reachable store0 roots o.id)
    (hgray : ∀ x ∈ g.gray, Reachable store0 roots x)
    (hreach : Reachable store0 roots id) :
    List.Forall₂ (fun a b => a.id = b.id ∧ a.refs = b.refs)
      (mark_object_as_alive g id).store store0 ∧
    (∀ o ∈ (mark_object_as_alive g id).store, o.alive = true →
      Reachable store0 roots o.id) ∧
    (∀ x ∈ (mark_object_as_alive g id).gray, Reachable store0 roots x) := by
  unfold mark_object_as_alive
  cases hl : lookupObj g.store id with
  | none => exact ⟨hskel, halive, hgray⟩
  | some o =>
    simp only [hl]
    by_cases ha : o.alive
    · rw [if_pos ha]
      exact ⟨hskel, halive, hgray⟩
    · rw [if_neg ha]
      refine ⟨skel_trans _ _ _ (skel_setAlive g.store id) hskel, ?_, ?_⟩
      · intro o2 ho2 halive2
        unfold setAlive at ho2
        obtain ⟨o3, ho3, heq⟩ := List.mem_map.mp ho2
        by_cases h3 : o3.id = id
        · rw [if_pos h3] at heq
          subst heq
          show Reachable store0 roots (⟨o3.id, true, o3.refs⟩ : GcObj).id
          have : (⟨o3.id, true, o3.refs⟩ : GcObj).id = id := h3
          rw [this]
          exact hreach
        · rw [if_neg h3] at heq
          subst heq
          exact halive o3 ho3 halive2
      · intro x hx
        rcases List.mem_cons.mp hx with rfl | hx2
        · exact hreach
        · exact hgray x hx2

theorem foldl_mark_sound (store0 : List GcObj) (roots : List Nat) :
    ∀ (ids : List Nat) (g : GcState),
      (∀ b ∈ ids, Reachable store0 roots b) →
      List.Forall₂ (fun a b => a.id = b.id ∧ a.refs = b.refs) g.store store0 →
      (∀ o ∈ g.store, o.alive = true → Reachable store0 roots o.id) →
      (∀ x ∈ g.gray, Reachable store0 roots x) →
      List.Forall₂ (fun a b => a.id = b.id ∧ a.refs = b.refs)
        (ids.foldl mark_object_as_alive g).store store0 ∧
      (∀ o ∈ (ids.foldl mark_object_as_alive g).store, o.alive = true →
        Reachable store0 roots o.id) ∧
      (∀ x ∈ (ids.foldl mark_object_as_alive g).gray, Reachable store0 roots x) := by
  intro ids
  induction ids with
  | nil => intro g _ hskel halive hgray; exact ⟨hskel, halive, hgray⟩
  | cons b rest ih =>
    intro g hids hskel halive hgray
    rw [List.foldl_cons]
    obtain ⟨h1, h2, h3⟩ := mark_object_sound store0 roots g b hskel halive hgray
      (hids b (List.mem_cons_self _ _))
    exact ih _ (fun x hx => hids x (List.mem_cons_of_mem _ hx)) h1 h2 h3

theorem trace_references_sound (store0 : List GcObj) (roots : List Nat) :
    ∀ (fuel : Nat) (g : GcState),
      List.Forall₂ (fun a b => a.id = b.id ∧ a.refs = b.refs) g.store store0 →
      (∀ o ∈ g.store, o.alive = true → Reachable store0 roots o.id) →
      (∀ x ∈ g.gray, Reachable store0 roots x) →
      List.Forall₂ (fun a b => a.id = b.id ∧ a.refs = b.refs)
        (trace_references fuel g).store store0 ∧
      (∀ o ∈ (trace_references fuel g).store, o.alive = true →
        Reachable store0 roots o.id) := by
  intro fuel
  induction fuel with
  | zero => intro g hskel halive _; exact ⟨hskel, halive⟩
  | succ fuel ih =>
    intro g hskel halive hgray
    unfold trace_references
    cases hgr : g.gray with
    | nil => exact ⟨hskel, halive⟩
    | cons id rest =>
      have hid : Reachable store0 roots id := by
        refine hgray id ?_
        rw [hgr]
        exact List.mem_cons_self _ _
      have hrest : ∀ x ∈ rest, Reachable store0 roots x := fun x hx =>
        hgray x (by rw [hgr]; exact List.mem_cons_of_mem _ hx)
      cases hl : lookupObj g.store id with
      | none =>
        simp only [hl]
        obtain ⟨h1, h2, h3⟩ := foldl_mark_sound store0 roots []
          ⟨g.store, rest⟩ (by intro b hb; cases hb) hskel halive hrest
        exact ih _ h1 h2 h3
      | some o =>
        simp only [hl]
        have hrefs : ∀ b ∈ o.refs, Reachable store0 roots b := by
          intro b hb
          obtain ⟨o0, hl0, hid0, hrefs0⟩ := skel_lookup g.store store0 id o hskel hl
          exact Reachable.step hid hl0 (by rwa [← hrefs0])
        obtain ⟨h1, h2, h3⟩ := foldl_mark_sound store0 roots o.refs
          ⟨g.store, rest⟩ hrefs hskel halive hrest
        exact ih _ h1 h2 h3

theorem sweep_lookup (store : List GcObj) (k : Nat)
    (h : aliveIn store k = true) :
    ∃ o, lookupObj (sweep store) k = some o ∧ o.alive = false ∧ o.id = k := by
  unfold aliveIn at h
  induction store with
  | nil => cases h
  | cons a s ih =>
    unfold lookupObj at h
    rw [List.find?_cons] at h
    by_cases ha : a.id = k
    · have hb : (a.id == k) = true := by simp [ha]
      rw [hb] at h
      have halive : a.alive = true := h
      unfold sweep
      rw [List.filterMap_cons]
      simp only [halive, if_pos]
      refine ⟨⟨a.id, false, a.refs⟩, ?_, rfl, ha⟩
      unfold lookupObj
      rw [List.find?_cons]
      have : ((⟨a.id, false, a.refs⟩ : GcObj).id == k) = true := by simp [ha]
      rw [this]
    · have hb : (a.id == k) = false := by simp [ha]
      rw [hb] at h
      have hrec := ih h
      unfold sweep
      rw [List.filterMap_cons]
      by_cases hal : a.alive = true
      · simp only [hal, if_pos]
        obtain ⟨o, ho, hoa, hoid⟩ := hrec
        refine ⟨o, ?_, hoa, hoid⟩
        unfold lookupObj
        rw [List.find?_cons]
        have : ((⟨a.id, false, a.refs⟩ : GcObj).id == k) = false := by simp [ha]
        rw [this]
        exact ho
      · have hal2 : a.alive = false := by
          cases hv : a.alive
          · rfl
          · exact absurd hv hal
        simp only [hal2]
        simpa using hrec

/-! ## C8: GC and the interned strings table -/

/-- C8: after a GC cycle starting with every object dead (the invariant the
previous sweep re-established), every entry remaining in the interned
strings table points at an object that survived the sweep with
is_alive == false and that was reachable from the (non-weak) root set
during the cycle; entries whose keys were unreachable at the end of the
mark phase were deleted from the table before the sweep freed them. -/
theorem gc_interned_strings_spec (hashOf : Nat → Nat) (roots : List Nat)
    (store : List GcObj) (t : Table)
    (hdead : ∀ o ∈ store, o.alive = false)
    (hcnt : t.count = occupied t.entries)
    (hself : ∀ i k, (slotAt t.entries i).key = some k →
      find_entry_list hashOf t.entries k = some i) :
    ∀ i k, (slotAt (memory__run_gc hashOf roots store t).2.entries i).key =
      some k →
      (∃ o, lookupObj (memory__run_gc hashOf roots store t).1 k = some o ∧
        o.alive = false ∧ o.id = k) ∧
      Reachable store roots k := by
  intro i k hkey
  have hrun : memory__run_gc hashOf roots store t =
      (sweep (trace_references
          (2 * (mark_roots roots store).store.length +
            (mark_roots roots store).gray.length + 1)
          (mark_roots roots store)).store,
        table__remove_dead_objects hashOf
          (aliveIn (trace_references
            (2 * (mark_roots roots store).store.length +
              (mark_roots roots store).gray.length + 1)
            (mark_roots roots store)).store) t) := rfl
  rw [hrun] at hkey ⊢
  have halive := table__remove_dead_objects_spec hashOf
    (aliveIn (trace_references
      (2 * (mark_roots roots store).store.length +
        (mark_roots roots store).gray.length + 1)
      (mark_roots roots store)).store) t hcnt hself i k hkey
  -- soundness of the mark phase
  have hmr := foldl_mark_sound store roots roots ⟨store, []⟩
    (fun b hb => Reachable.root hb) (skel_refl store)
    (fun o ho ha => absurd ha (by rw [hdead o ho]; exact Bool.false_ne_true))
    (fun x hx => by cases hx)
  have htr := trace_references_sound store roots
    (2 * (mark_roots roots store).store.length +
      (mark_roots roots store).gray.length + 1)
    (mark_roots roots store) hmr.1 hmr.2.1 hmr.2.2
  constructor
  · exact sweep_lookup _ k halive
  · unfold aliveIn at halive
    cases hl : lookupObj (trace_references
        (2 * (mark_roots roots store).store.length +
          (mark_roots roots store).gray.length + 1)
        (mark_roots roots store)).store k with
    | none => rw [hl] at halive; cases halive
    | some o =>
      rw [hl] at halive
      have hoid : o.id = k := by
        have := List.find?_some hl
        simpa using this
      have hmem := List.mem_of_find?_eq_some hl
      rw [← hoid]
      exact htr.2 o hmem halive

/-- Witness for C8: one dead string object rooted directly, interned in a
one-bucket table; after the cycle it survives with is_alive false and is
reachable. -/
theorem gc_interned_strings_spec_witness :
    (∀ o ∈ [(⟨0, false, []⟩ : GcObj)], o.alive = false) ∧
    (⟨1, [⟨some 0, Value.nil⟩]⟩ : Table).count =
      occupied (⟨1, [⟨some 0, Value.nil⟩]⟩ : Table).entries ∧
    (slotAt (memory__run_gc (fun _ => 0) [0] [⟨0, false, []⟩]
      ⟨1, [⟨some 0, Value.nil⟩]⟩).2.entries 0).key = some 0 ∧
    ((∃ o, lookupObj (memory__run_gc (fun _ => 0) [0] [⟨0, false, []⟩]
        ⟨1, [⟨some 0, Value.nil⟩]⟩).1 0 = some o ∧
        o.alive = false ∧ o.id = 0) ∧
      Reachable [⟨0, false, []⟩] [0] 0) := by
  have hself : ∀ i k,
      (slotAt (⟨1, [⟨some 0, Value.nil⟩]⟩ : Table).entries i).key = some k →
      find_entry_list (fun _ => 0)
        (⟨1, [⟨some 0, Value.nil⟩]⟩ : Table).entries k = some i := by
    intro i k h
    cases i with
    | zero =>
      have h2 : some 0 = some k := h
      injection h2 with h2
      subst h2
      decide
    | succ j =>
      rw [slotAt_of_le_length _ _ (by simp)] at h
      cases h
  have hkey : (slotAt (memory__run_gc (fun _ => 0) [0] [⟨0, false, []⟩]
      ⟨1, [⟨some 0, Value.nil⟩]⟩).2.entries 0).key = some 0 := by decide
  refine ⟨by decide, by decide, hkey, ?_⟩
  exact gc_interned_strings_spec (fun _ => 0) [0] [⟨0, false, []⟩]
    ⟨1, [⟨some 0, Value.nil⟩]⟩ (by decide) (by decide) hself 0 0 hkey

/-- C2: the spec promises that equal string contents always share one heap
cell, so `==` on strings is reference equality and still correct. The code
breaks this for literals containing escape sequences: string__copy hashes
and compares the RAW source bytes against the table but stores the
TRANSLATED bytes, so a second occurrence of the same escaped literal never
matches the first. Compiling the literal `"a\n"` (raw bytes 97, 92, 110)
twice from an empty state yields two distinct heap cells whose stored
character contents are identical (97, 10), and value__equals — pointer
comparison — returns false on them even though the contents are equal. -/
theorem string_interning_escape_bug :
    (string__copy [97, 92, 110] ⟨[], ⟨0, []⟩⟩).1 ≠
      (string__copy [97, 92, 110]
        (string__copy [97, 92, 110] ⟨[], ⟨0, []⟩⟩).2).1 ∧
    ((string__copy [97, 92, 110] ⟨[], ⟨0, []⟩⟩).2.heap.getD
        (string__copy [97, 92, 110] ⟨[], ⟨0, []⟩⟩).1 ⟨[], 0⟩).chars =
      (((string__copy [97, 92, 110]
          (string__copy [97, 92, 110] ⟨[], ⟨0, []⟩⟩).2).2.heap.getD
        (string__copy [97, 92, 110]
          (string__copy [97, 92, 110] ⟨[], ⟨0, []⟩⟩).2).1 ⟨[], 0⟩)).chars ∧
    value__equals
      (Value.object (string__copy [97, 92, 110] ⟨[], ⟨0, []⟩⟩).1)
      (Value.object (string__copy [97, 92, 110]
        (string__copy [97, 92, 110] ⟨[], ⟨0, []⟩⟩).2).1) = false := by
  decide

end Lox
